import Mathlib

/-! Five-stage pipeline simulator (`pkg/main.go`)

A shallow embedding of the pipeline engine of `arquitetura-computadores-GA`:
the register file, the control unit, the pipeline stages and the
`NewPipeline` / `cycle` / `Run` functions, followed by theorems about them.

Conventions of the embedding

* A Go `int` is a Lean `Int`; the two increments of `cycle` (`p.pc++`,
  `p.instructionCount++`) and the addition of `resolveBranch` wrap to 64 bits
  through `wrapInt64`.
* A runtime panic of an indexing expression is the `Except.error` result
  `RuntimeError.indexOutOfRange`.
* Methods with a pointer receiver take the receiver's value and give back the
  receiver's value after the call.
* Standard output is the list of the texts written by the successive
  `fmt.Printf` / `fmt.Println` calls, each with its terminating newline.
-/

namespace PipelineSim

/-! ## Go runtime -/

/-- The Go runtime panic raised by an indexing expression whose index is not
within `0 ≤ index < length`. -/
inductive RuntimeError where
  | indexOutOfRange (index : Int) (length : Nat)
  deriving DecidableEq, Repr

/-- Two's-complement wrap-around of Go's 64-bit `int` arithmetic. -/
def wrapInt64 (x : Int) : Int :=
  (x + 9223372036854775808) % 18446744073709551616 - 9223372036854775808

/-- Indexing expression `xs[i]` on a slice: panics unless `0 ≤ i < len(xs)`. -/
def indexSlice {α : Type} (xs : List α) (i : Int) : Except RuntimeError α :=
  if 0 ≤ i then
    match xs[i.toNat]? with
    | some x => .ok x
    | none => .error (.indexOutOfRange i xs.length)
  else .error (.indexOutOfRange i xs.length)

/-- Go's `strings.Contains(s, substr)`: `substr` occurs in `s` at some
position. -/
def stringsContains (s substr : String) : Bool :=
  s.data.tails.any (fun t => substr.data.isPrefixOf t)

/-! ## Instruction records -/

/-- Modelled from the spec: the record type `instructions.MemInstruction` of the
loader package, which is not part of the core; the core only uses its textual
rendering, kept here as the single field. -/
structure MemInstruction where
  rendering : String
  deriving DecidableEq, Repr

/-- Modelled from the spec: the method `MemInstruction.String()` of the loader
package, the per-instruction rendering used for display and branch
detection. -/
def MemInstruction.String (m : MemInstruction) : String := m.rendering

/-- Go `State`: the initial state handed to `NewPipeline`. -/
structure State where
  Pc : Int
  InstructionMemory : List MemInstruction
  Registers : Fin 32 → Int

/-! ## Register file -/

/-- Go `RegisterFile`: `registers [32]int`. -/
structure RegisterFile where
  registers : Fin 32 → Int

/-- The zero value `RegisterFile{}`. -/
def RegisterFile.zero : RegisterFile := ⟨fun _ => 0⟩

/-- Go `(*RegisterFile).Read`: `return rf.registers[regNum]`. The first
component is the returned value or the panic of the indexing expression, the
second the register file after the call. -/
def RegisterFile.Read (rf : RegisterFile) (regNum : Int) :
    Except RuntimeError Int × RegisterFile :=
  if h : 0 ≤ regNum ∧ regNum < 32 then
    (.ok (rf.registers ⟨regNum.toNat, by omega⟩), rf)
  else (.error (.indexOutOfRange regNum 32), rf)

/-- Go `(*RegisterFile).Write`: `if regNum != 0 { rf.registers[regNum] = value }`.
The first component tells whether the call returned or panicked, the second
is the register file after the call. -/
def RegisterFile.Write (rf : RegisterFile) (regNum : Int) (value : Int) :
    Except RuntimeError Unit × RegisterFile :=
  if regNum ≠ 0 then
    if h : 0 ≤ regNum ∧ regNum < 32 then
      (.ok (), ⟨Function.update rf.registers ⟨regNum.toNat, by omega⟩ value⟩)
    else (.error (.indexOutOfRange regNum 32), rf)
  else (.ok (), rf)

/-- A sequence of `Write` calls, performed from left to right; a call that
panics ends the sequence. -/
def RegisterFile.writeAll (rf : RegisterFile) :
    List (Int × Int) → Except RuntimeError Unit × RegisterFile
  | [] => (.ok (), rf)
  | (regNum, value) :: rest =>
    match rf.Write regNum value with
    | (.ok _, rf') => rf'.writeAll rest
    | (.error e, rf') => (.error e, rf')

/-! ## Control unit -/

/-- Go `ControlUnit`. -/
structure ControlUnit where
  branchTaken : Bool
  deriving DecidableEq, Repr

/-- Go `(*ControlUnit).HandleBranch`: `controlUnit.branchTaken = condition`. -/
def ControlUnit.HandleBranch (_controlUnit : ControlUnit) (condition : Bool) :
    ControlUnit :=
  { branchTaken := condition }

/-! ## Pipeline stages -/

/-- Go `PipelineStage`. -/
structure PipelineStage where
  stageName : String
  instruction : String
  deriving DecidableEq, Repr

/-- Go `(*PipelineStage).Process`: `ps.instruction = instruction`. -/
def PipelineStage.Process (ps : PipelineStage) (instruction : String) :
    PipelineStage :=
  { ps with instruction := instruction }

/-- Go `(*PipelineStage).PrintState`: the text written by
`fmt.Printf("%s: %s\n", ps.stageName, ps.instruction)`. -/
def PipelineStage.PrintState (ps : PipelineStage) : String :=
  ps.stageName ++ ": " ++ ps.instruction ++ "\n"

/-! ## Pipeline engine -/

/-- Go `Pipeline`. The five stage pointers of `stages [5]*PipelineStage` are
allocated separately by `NewPipeline`, the only constructor, and are held
here by value; likewise `registers` and `controlUnit`. -/
structure Pipeline where
  instructions : List MemInstruction
  registers : RegisterFile
  controlUnit : ControlUnit
  stages : Fin 5 → PipelineStage
  pc : Int
  instructionCount : Int

/-- Go `NewPipeline`. The stages are `{"IF", ""}` ... `{"WB", ""}`; the
register file and the control unit are zero values, `instructionCount` is
left at its zero value and `state.Registers` is not read. -/
def NewPipeline (state : State) : Pipeline :=
  { instructions := state.InstructionMemory
    registers := RegisterFile.zero
    controlUnit := { branchTaken := false }
    stages := fun i =>
      match i with
      | 0 => ⟨"IF", ""⟩
      | 1 => ⟨"ID", ""⟩
      | 2 => ⟨"EX", ""⟩
      | 3 => ⟨"MEM", ""⟩
      | 4 => ⟨"WB", ""⟩
    pc := state.Pc
    instructionCount := 0 }

/-- The shift loop of `cycle`,
`for i := len(p.stages) - 1; i > 0; i-- { p.stages[i].instruction = p.stages[i-1].instruction }`,
entered with loop variable `i`. -/
def shiftLoop : Nat → (Fin 5 → PipelineStage) → (Fin 5 → PipelineStage)
  | 0, stages => stages
  | i + 1, stages =>
    if h : i + 1 < 5 then
      shiftLoop i
        (Function.update stages ⟨i + 1, h⟩
          { stages ⟨i + 1, h⟩ with instruction := (stages ⟨i, by omega⟩).instruction })
    else stages

/-- Go `(*Pipeline).resolveBranch`: `return p.pc + 1`. -/
def Pipeline.resolveBranch (p : Pipeline) (_instruction : String) : Int :=
  wrapInt64 (p.pc + 1)

/-- The fetch of `cycle`: the rendering of `p.instructions[p.pc]` when
`p.pc < len(p.instructions)`, the empty string otherwise. The indexing
expression panics for a negative `p.pc`. -/
def Pipeline.fetch (p : Pipeline) : Except RuntimeError String :=
  if p.pc < (p.instructions.length : Int) then
    match indexSlice p.instructions p.pc with
    | .ok m => .ok m.String
    | .error e => .error e
  else .ok ""

/-- The decode step of `cycle` on the fetched token: the program counter
update under the control unit's decision. -/
def Pipeline.decode (p : Pipeline) (currentInstruction : String) : Pipeline :=
  if currentInstruction ≠ "" ∧ stringsContains currentInstruction "BRANCH" = true then
    let p1 := { p with controlUnit := p.controlUnit.HandleBranch false }
    if p1.controlUnit.branchTaken = true then
      { p1 with pc := p1.resolveBranch currentInstruction }
    else
      { p1 with pc := wrapInt64 (p1.pc + 1) }
  else
    { p with pc := wrapInt64 (p.pc + 1) }

/-- Go `(*Pipeline).cycle`: shift, fetch into stage 0, decode, count. -/
def Pipeline.cycle (p : Pipeline) : Except RuntimeError Pipeline :=
  let shifted := shiftLoop 4 p.stages
  match { p with stages := shifted }.fetch with
  | .error e => .error e
  | .ok currentInstruction =>
    let p1 : Pipeline :=
      { p with stages := Function.update shifted 0 ((shifted 0).Process currentInstruction) }
    let p2 := p1.decode currentInstruction
    .ok { p2 with instructionCount := wrapInt64 (p2.instructionCount + 1) }

/-- The state after `n` successive calls of `cycle`, or the first panic. -/
def Pipeline.cycles : Nat → Pipeline → Except RuntimeError Pipeline
  | 0, p => .ok p
  | n + 1, p =>
    match p.cycle with
    | .error e => .error e
    | .ok p' => Pipeline.cycles n p'

/-- Go `(*Pipeline).printStages`: the header, one text per stage in index
order, and the empty `fmt.Println()`. -/
def Pipeline.printStages (p : Pipeline) : List String :=
  ("Pipeline Stages (PC: " ++ toString p.pc ++ "):\n")
    :: ((List.finRange 5).map (fun i => (p.stages i).PrintState) ++ ["\n"])

/-- The last text written by `Run`:
`fmt.Printf("Total de instruções executadas: %d\n", p.instructionCount)`. -/
def Pipeline.totalLine (p : Pipeline) : String :=
  "Total de instruções executadas: " ++ toString p.instructionCount ++ "\n"

/-- How a fuel-bounded execution of `Run` ends: it returns, with the final
pipeline, everything written to standard output and the number of calls of
`cycle`; or a `cycle` panics, after the output written so far; or the fuel is
used up while the loop condition still holds. -/
inductive RunOutcome where
  | halted (p : Pipeline) (output : List String) (cycleCalls : Nat)
  | panicked (e : RuntimeError) (output : List String)
  | outOfFuel

/-- The loop of `Run`, `for p.pc < len(p.instructions) { p.cycle(); p.printStages() }`,
with at most `fuel` iterations; `output` and `cycleCalls` accumulate what has
been written and how often `cycle` has been called. -/
def Pipeline.runLoop : Nat → Pipeline → List String → Nat → RunOutcome
  | fuel, p, output, cycleCalls =>
    if p.pc < (p.instructions.length : Int) then
      match fuel with
      | 0 => .outOfFuel
      | fuel + 1 =>
        match p.cycle with
        | .error e => .panicked e output
        | .ok p' => Pipeline.runLoop fuel p' (output ++ p'.printStages) (cycleCalls + 1)
    else .halted p (output ++ [p.totalLine]) cycleCalls

/-- Go `(*Pipeline).Run`, with at most `fuel` loop iterations. -/
def Pipeline.Run (fuel : Nat) (p : Pipeline) : RunOutcome :=
  p.runLoop fuel [] 0

/-! ## Reference values for a run from `Pc = 0` -/

/-- The token a run from `Pc = 0` over `instrs` holds in stage `i` after its
`k`-th cycle: the rendering of the instruction fetched `i` cycles earlier,
that is the one at index `k - 1 - i`, and the empty token while the pipeline
is still filling. -/
def tokenAfter (instrs : List MemInstruction) (k : Nat) (i : Fin 5) : String :=
  if i.val < k then
    match instrs[k - 1 - i.val]? with
    | some m => m.String
    | none => ""
  else ""

/-- The pipeline a run from `Pc = 0` over `instrs` has reached after its
`k`-th cycle. -/
def stateAfter (instrs : List MemInstruction) (k : Nat) : Pipeline :=
  { instructions := instrs
    registers := RegisterFile.zero
    controlUnit := { branchTaken := false }
    stages := fun i =>
      { stageName := ((NewPipeline ⟨0, instrs, fun _ => 0⟩).stages i).stageName
        instruction := tokenAfter instrs k i }
    pc := k
    instructionCount := k }

/-- The texts of the report written after the `k`-th cycle of a run from
`Pc = 0` over `instrs`. -/
def reportAfter (instrs : List MemInstruction) (k : Nat) : List String :=
  [ "Pipeline Stages (PC: " ++ toString (k : Int) ++ "):\n",
    "IF: " ++ tokenAfter instrs k 0 ++ "\n",
    "ID: " ++ tokenAfter instrs k 1 ++ "\n",
    "EX: " ++ tokenAfter instrs k 2 ++ "\n",
    "MEM: " ++ tokenAfter instrs k 3 ++ "\n",
    "WB: " ++ tokenAfter instrs k 4 ++ "\n",
    "\n" ]

/-- The reports after cycles `k + 1`, ..., `k + n`, in order. -/
def reportsFrom (instrs : List MemInstruction) : Nat → Nat → List String
  | _, 0 => []
  | k, n + 1 => reportAfter instrs (k + 1) ++ reportsFrom instrs (k + 1) n

/-- A three-instruction program whose second instruction is branch-classified. -/
def sampleProgram : List MemInstruction :=
  [⟨"ADD R1, R2, R3"⟩, ⟨"BRANCH R1, 8"⟩, ⟨"SUB R4, R1, R2"⟩]

/-- A two-instruction program that ends with a branch-classified instruction. -/
def branchLastProgram : List MemInstruction :=
  [⟨"ADD R1, R2, R3"⟩, ⟨"BRANCH R1, 8"⟩]

/-! ## The decode step with an arbitrary condition signal -/

/-- The arm of the decode step of `cycle` that is executed: the `else` of the
outer test (no branch token), the `else` of the inner test (`p.pc++` after
`HandleBranch`), or its `then` (`p.pc = p.resolveBranch(...)`). -/
inductive DecodeArm where
  | notBranch
  | notTaken
  | taken
  deriving DecidableEq, Repr

/-- The decode step of `cycle` with `HandleBranch(condition)` in place of the
source's `HandleBranch(false)`; `decodeWith false` is `decode`. -/
def Pipeline.decodeWith (condition : Bool) (p : Pipeline) (currentInstruction : String) :
    Pipeline :=
  if currentInstruction ≠ "" ∧ stringsContains currentInstruction "BRANCH" = true then
    let p1 := { p with controlUnit := p.controlUnit.HandleBranch condition }
    if p1.controlUnit.branchTaken = true then
      { p1 with pc := p1.resolveBranch currentInstruction }
    else
      { p1 with pc := wrapInt64 (p1.pc + 1) }
  else
    { p with pc := wrapInt64 (p.pc + 1) }

/-- The arm that `decodeWith condition` executes on the fetched token. -/
def Pipeline.decodeArm (condition : Bool) (p : Pipeline) (currentInstruction : String) :
    DecodeArm :=
  if currentInstruction ≠ "" ∧ stringsContains currentInstruction "BRANCH" = true then
    let p1 := { p with controlUnit := p.controlUnit.HandleBranch condition }
    if p1.controlUnit.branchTaken = true then .taken else .notTaken
  else .notBranch

/-- Go `(*Pipeline).cycle` with `HandleBranch(condition)` in place of the
source's `HandleBranch(false)`; `cycleWith false` is `cycle`. -/
def Pipeline.cycleWith (condition : Bool) (p : Pipeline) : Except RuntimeError Pipeline :=
  let shifted := shiftLoop 4 p.stages
  match { p with stages := shifted }.fetch with
  | .error e => .error e
  | .ok currentInstruction =>
    let p1 : Pipeline :=
      { p with stages := Function.update shifted 0 ((shifted 0).Process currentInstruction) }
    let p2 := p1.decodeWith condition currentInstruction
    .ok { p2 with instructionCount := wrapInt64 (p2.instructionCount + 1) }

/-- The pipeline with the control unit's flag cleared: everything a cycle
leaves behind apart from `branchTaken`. -/
def Pipeline.withoutFlag (p : Pipeline) : Pipeline :=
  { p with controlUnit := { branchTaken := false } }

/-- A pipeline in the middle of a run, with a token in every stage, the
decision taken recorded, and a branch-classified instruction next. -/
def busyPipeline : Pipeline :=
  { instructions := [⟨"ADD R1, R2, R3"⟩, ⟨"BRANCH R1, 8"⟩, ⟨"SUB R4, R1, R2"⟩]
    registers := RegisterFile.zero
    controlUnit := { branchTaken := true }
    stages := fun i =>
      match i with
      | 0 => ⟨"IF", "t0"⟩
      | 1 => ⟨"ID", "t1"⟩
      | 2 => ⟨"EX", "t2"⟩
      | 3 => ⟨"MEM", "t3"⟩
      | 4 => ⟨"WB", "t4"⟩
    pc := 1
    instructionCount := 7 }

/-! ## Auxiliary lemmas -/

theorem wrapInt64_eq_self {x : Int} (h₁ : -9223372036854775808 ≤ x)
    (h₂ : x < 9223372036854775808) : wrapInt64 x = x := by
  unfold wrapInt64
  omega

theorem indexSlice_natCast {α : Type} (xs : List α) (k : Nat) (x : α)
    (h : xs[k]? = some x) : indexSlice xs (k : Int) = .ok x := by
  simp [indexSlice, h]

theorem shiftLoop_four (stages : Fin 5 → PipelineStage) :
    shiftLoop 4 stages = fun i =>
      match i with
      | 0 => stages 0
      | 1 => { stages 1 with instruction := (stages 0).instruction }
      | 2 => { stages 2 with instruction := (stages 1).instruction }
      | 3 => { stages 3 with instruction := (stages 2).instruction }
      | 4 => { stages 4 with instruction := (stages 3).instruction } := by
  funext i
  fin_cases i <;> simp [shiftLoop, Function.update]

/-- Both arms of the decode step leave the same pipeline when the control
unit holds the decision not taken. -/
theorem decode_of_not_taken (p : Pipeline) (token : String)
    (h : p.controlUnit.branchTaken = false) :
    p.decode token = { p with pc := wrapInt64 (p.pc + 1) } := by
  unfold Pipeline.decode
  split
  · cases p with
    | mk ins regs cu st pc cnt =>
      cases cu with
      | mk b =>
        simp only at h
        subst h
        simp [ControlUnit.HandleBranch]
  · rfl

theorem fetch_stateAfter (instrs : List MemInstruction) (k : Nat)
    (stages : Fin 5 → PipelineStage) (m : MemInstruction) (hm : instrs[k]? = some m) :
    ({ stateAfter instrs k with stages := stages }).fetch = .ok m.String := by
  have hk : k < instrs.length := by
    by_contra hc
    rw [List.getElem?_eq_none (by omega)] at hm
    cases hm
  simp [Pipeline.fetch, stateAfter, hk, indexSlice_natCast _ _ _ hm]

theorem tokenAfter_succ_zero (instrs : List MemInstruction) (k : Nat)
    (m : MemInstruction) (hm : instrs[k]? = some m) :
    tokenAfter instrs (k + 1) 0 = m.String := by
  simp [tokenAfter, hm]

theorem tokenAfter_succ_succ (instrs : List MemInstruction) (k : Nat) (i : Nat)
    (h : i + 1 < 5) :
    tokenAfter instrs (k + 1) ⟨i + 1, h⟩ = tokenAfter instrs k ⟨i, by omega⟩ := by
  simp only [tokenAfter]
  by_cases hi : i < k
  · have e : k + 1 - 1 - (i + 1) = k - 1 - i := by omega
    rw [if_pos (by simpa using hi), if_pos (by simpa using hi)]
    simp only [e]
  · rw [if_neg (by simpa using hi), if_neg (by simpa using hi)]

theorem cycle_stateAfter (instrs : List MemInstruction) (k : Nat)
    (hlen : instrs.length < 9223372036854775808) (hk : k < instrs.length) :
    (stateAfter instrs k).cycle = .ok (stateAfter instrs (k + 1)) := by
  obtain ⟨m, hm⟩ : ∃ m, instrs[k]? = some m := ⟨instrs[k], by simp [hk]⟩
  unfold Pipeline.cycle
  simp only [fetch_stateAfter instrs k _ m hm]
  rw [decode_of_not_taken _ _ rfl]
  have hw : wrapInt64 ((k : Int) + 1) = ((k + 1 : Nat) : Int) := by
    rw [wrapInt64_eq_self (by omega) (by omega)]
    push_cast
    rfl
  simp only [stateAfter, hw, shiftLoop_four]
  simp only [Except.ok.injEq, Pipeline.mk.injEq, true_and, and_true]
  funext i
  have h0 := tokenAfter_succ_zero instrs k m hm
  have h1 := tokenAfter_succ_succ instrs k 0 (by omega)
  have h2 := tokenAfter_succ_succ instrs k 1 (by omega)
  have h3 := tokenAfter_succ_succ instrs k 2 (by omega)
  have h4 := tokenAfter_succ_succ instrs k 3 (by omega)
  fin_cases i <;> simp_all [Function.update, PipelineStage.Process, NewPipeline]

theorem newPipeline_eq_stateAfter (instrs : List MemInstruction) (regs : Fin 32 → Int) :
    NewPipeline ⟨0, instrs, regs⟩ = stateAfter instrs 0 := by
  simp only [NewPipeline, stateAfter, Pipeline.mk.injEq, true_and, Nat.cast_zero, and_true]
  funext i
  fin_cases i <;> simp [tokenAfter]

theorem cycles_stateAfter (instrs : List MemInstruction)
    (hlen : instrs.length < 9223372036854775808) (n k : Nat) (h : k + n ≤ instrs.length) :
    (stateAfter instrs k).cycles n = .ok (stateAfter instrs (k + n)) := by
  induction n generalizing k with
  | zero => rfl
  | succ n ih =>
    simp only [Pipeline.cycles, cycle_stateAfter instrs k hlen (by omega)]
    rw [ih (k + 1) (by omega)]
    congr 2
    omega

theorem printStages_stateAfter (instrs : List MemInstruction) (k : Nat) :
    (stateAfter instrs k).printStages = reportAfter instrs k := by
  have h5 : List.finRange 5 = [0, 1, 2, 3, 4] := by decide
  simp [Pipeline.printStages, stateAfter, reportAfter, h5, PipelineStage.PrintState,
    NewPipeline]

theorem runLoop_stateAfter (instrs : List MemInstruction)
    (hlen : instrs.length < 9223372036854775808) (n : Nat) :
    ∀ (k fuel : Nat) (output : List String) (calls : Nat),
      k + n = instrs.length → n ≤ fuel →
      (stateAfter instrs k).runLoop fuel output calls =
        .halted (stateAfter instrs instrs.length)
          (output ++ reportsFrom instrs k n ++ [(stateAfter instrs instrs.length).totalLine])
          (calls + n) := by
  induction n with
  | zero =>
    intro k fuel output calls hk _
    have hk' : k = instrs.length := by omega
    subst hk'
    unfold Pipeline.runLoop
    simp [stateAfter, reportsFrom]
  | succ n ih =>
    intro k fuel output calls hk hfuel
    obtain ⟨fuel, rfl⟩ : ∃ f, fuel = f + 1 := ⟨fuel - 1, by omega⟩
    unfold Pipeline.runLoop
    have hlt : (stateAfter instrs k).pc < ((stateAfter instrs k).instructions.length : Int) := by
      simp only [stateAfter]
      omega
    simp only [hlt, if_true, cycle_stateAfter instrs k hlen (by omega)]
    rw [ih (k + 1) fuel _ _ (by omega) (by omega), printStages_stateAfter]
    simp only [reportsFrom, List.append_assoc]
    congr 1
    omega

theorem reportsFrom_eq_flatMap (instrs : List MemInstruction) (n : Nat) :
    ∀ k, reportsFrom instrs k n
      = (List.range n).flatMap (fun j => reportAfter instrs (k + j + 1)) := by
  induction n with
  | zero => intro k; rfl
  | succ n ih =>
    intro k
    rw [reportsFrom, ih (k + 1), List.range_succ_eq_map]
    simp only [List.flatMap_cons, List.flatMap_map, Nat.add_zero]
    congr 2
    funext j
    congr 1
    omega

theorem tokenAfter_spec (instrs : List MemInstruction) (k : Nat) (hk : k ≤ instrs.length)
    (i : Fin 5) :
    (i.val < k →
        (instrs[k - 1 - i.val]?).map MemInstruction.String = some (tokenAfter instrs k i)) ∧
      (k ≤ i.val → tokenAfter instrs k i = "") := by
  constructor
  · intro hi
    have hlt : k - 1 - i.val < instrs.length := by omega
    simp [tokenAfter, hi, List.getElem?_eq_getElem hlt]
  · intro hi
    simp [tokenAfter, Nat.not_lt.mpr hi]

theorem decode_pc (p : Pipeline) (token : String) :
    (p.decode token).pc = wrapInt64 (p.pc + 1) := by
  unfold Pipeline.decode
  split
  · dsimp only
    split <;> rfl
  · rfl

theorem cycle_of_fetch (p : Pipeline) (token : String)
    (h : ({ p with stages := shiftLoop 4 p.stages } : Pipeline).fetch = .ok token) :
    p.cycle = .ok
      (let shifted := shiftLoop 4 p.stages
      let p1 : Pipeline :=
        { p with stages := Function.update shifted 0 ((shifted 0).Process token) }
      let p2 := p1.decode token
      { p2 with instructionCount := wrapInt64 (p2.instructionCount + 1) }) := by
  unfold Pipeline.cycle
  simp only [h]

theorem decode_stages (p : Pipeline) (token : String) :
    (p.decode token).stages = p.stages := by
  unfold Pipeline.decode
  split
  · dsimp only
    split <;> rfl
  · rfl

theorem indexSlice_of_inBounds {α : Type} (xs : List α) (i : Int) (h0 : 0 ≤ i)
    (hN : i < (xs.length : Int)) : ∃ x, xs[i.toNat]? = some x ∧ indexSlice xs i = .ok x := by
  have hlt : i.toNat < xs.length := by omega
  refine ⟨xs[i.toNat], List.getElem?_eq_getElem hlt, ?_⟩
  simp [indexSlice, h0, List.getElem?_eq_getElem hlt]

theorem write_ok_of_inRange (rf : RegisterFile) (i v : Int) (h : 0 ≤ i ∧ i < 32) :
    (rf.Write i v).1 = .ok () := by
  unfold RegisterFile.Write
  by_cases hne : i ≠ 0
  · rw [if_pos hne, dif_pos h]
  · rw [if_neg hne]

theorem write_register_zero (rf : RegisterFile) (i v : Int) :
    (rf.Write i v).2.registers 0 = rf.registers 0 := by
  unfold RegisterFile.Write
  split
  · rename_i hne
    split
    · rename_i h
      have hidx : (0 : Fin 32) ≠ ⟨i.toNat, by omega⟩ := by
        intro hc
        have := congrArg Fin.val hc
        simp only [Fin.val_zero] at this
        omega
      simp only [Function.update_noteq hidx]
    · rfl
  · rfl

theorem writeAll_cons (rf : RegisterFile) (i v : Int) (rest : List (Int × Int)) :
    rf.writeAll ((i, v) :: rest) =
      match rf.Write i v with
      | (.ok _, rf') => rf'.writeAll rest
      | (.error e, rf') => (.error e, rf') := rfl

theorem writeAll_register_zero (ws : List (Int × Int)) :
    ∀ rf : RegisterFile, (rf.writeAll ws).2.registers 0 = rf.registers 0 := by
  induction ws with
  | nil => intro rf; rfl
  | cons w rest ih =>
    intro rf
    obtain ⟨i, v⟩ := w
    rw [writeAll_cons]
    have h0 := write_register_zero rf i v
    revert h0
    generalize rf.Write i v = r
    obtain ⟨res, rf'⟩ := r
    intro h0
    cases res with
    | ok u => exact (ih rf').trans h0
    | error e => exact h0

theorem writeAll_ok (ws : List (Int × Int)) :
    ∀ rf : RegisterFile, (∀ w ∈ ws, 0 ≤ w.1 ∧ w.1 < 32) → (rf.writeAll ws).1 = .ok () := by
  induction ws with
  | nil => intro rf _; rfl
  | cons w rest ih =>
    intro rf hin
    obtain ⟨i, v⟩ := w
    rw [writeAll_cons]
    have hok := write_ok_of_inRange rf i v (hin (i, v) (List.mem_cons_self _ _))
    revert hok
    generalize rf.Write i v = r
    obtain ⟨res, rf'⟩ := r
    intro hok
    simp only at hok
    subst hok
    exact ih rf' (fun w hw => hin w (List.mem_cons_of_mem _ hw))

/-! ## The run from `Pc = 0` -/

/-- C1: for every instruction sequence of length `N` (a Go slice, so `N < 2^63`), in
particular every non-empty one, `Run` on `NewPipeline` with `Pc = 0` calls `cycle`
exactly `N` times and then halts: the loop condition holds before each of the `N`
calls and fails after the last one, the final pipeline is the `N`-fold iterate of
`cycle`, its executed-instruction counter is `N`, and the last text written reports
`N`. -/
theorem run_executes_length_cycles (instrs : List MemInstruction) (regs : Fin 32 → Int)
    (fuel : Nat) (hlen : instrs.length < 9223372036854775808)
    (hfuel : instrs.length ≤ fuel) :
    ∃ p output,
      (NewPipeline ⟨0, instrs, regs⟩).Run fuel = .halted p output instrs.length ∧
      (NewPipeline ⟨0, instrs, regs⟩).cycles instrs.length = .ok p ∧
      (∀ k < instrs.length, ∃ q, (NewPipeline ⟨0, instrs, regs⟩).cycles k = .ok q ∧
        q.pc < (q.instructions.length : Int)) ∧
      ¬ p.pc < (p.instructions.length : Int) ∧
      p.instructionCount = (instrs.length : Int) ∧
      output.getLast? =
        some ("Total de instruções executadas: " ++ toString (instrs.length : Int) ++ "\n") := by
  refine ⟨stateAfter instrs instrs.length,
    reportsFrom instrs 0 instrs.length ++ [(stateAfter instrs instrs.length).totalLine],
    ?_, ?_, ?_, ?_, rfl, ?_⟩
  · rw [Pipeline.Run, newPipeline_eq_stateAfter,
      runLoop_stateAfter instrs hlen instrs.length 0 fuel [] 0 (by omega) hfuel]
    simp
  · rw [newPipeline_eq_stateAfter, cycles_stateAfter instrs hlen instrs.length 0 (by omega)]
    simp
  · intro k hk
    refine ⟨stateAfter instrs k, ?_, ?_⟩
    · rw [newPipeline_eq_stateAfter, cycles_stateAfter instrs hlen k 0 (by omega)]
      simp
    · simp only [stateAfter]
      omega
  · simp [stateAfter]
  · simp [Pipeline.totalLine, stateAfter]

/-- Witness of C1 on the three-instruction sample program. -/
theorem run_executes_length_cycles_witness :
    sampleProgram.length < 9223372036854775808 ∧ sampleProgram.length ≤ 3 ∧
    ∃ p output,
      (NewPipeline ⟨0, sampleProgram, fun _ => 0⟩).Run 3 = .halted p output sampleProgram.length ∧
      (NewPipeline ⟨0, sampleProgram, fun _ => 0⟩).cycles sampleProgram.length = .ok p ∧
      (∀ k < sampleProgram.length, ∃ q,
        (NewPipeline ⟨0, sampleProgram, fun _ => 0⟩).cycles k = .ok q ∧
        q.pc < (q.instructions.length : Int)) ∧
      ¬ p.pc < (p.instructions.length : Int) ∧
      p.instructionCount = (sampleProgram.length : Int) ∧
      output.getLast? =
        some ("Total de instruções executadas: " ++ toString (sampleProgram.length : Int)
          ++ "\n") :=
  ⟨by decide, by decide,
    run_executes_length_cycles sampleProgram (fun _ => 0) 3 (by decide) (by decide)⟩

/-- C2: after the `k`-th cycle of a run from `Pc = 0`, for every `k ≤ N` and so for every
`k` with `1 ≤ k ≤ N`, stage `i` holds the rendering of the instruction at index
`k - 1 - i` (the `(k - i)`-th, counting from 1) when `i < k`, and the empty token when
`k ≤ i`. For a three-instruction program
`[a, b, c]` the report after the 3rd cycle shows `c` in IF, `b` in ID, `a` in EX, and
MEM and WB empty. -/
theorem stages_after_kth_cycle (instrs : List MemInstruction) (regs : Fin 32 → Int)
    (k : Nat) (a b c : MemInstruction) (hlen : instrs.length < 9223372036854775808)
    (hkN : k ≤ instrs.length) :
    (∃ p, (NewPipeline ⟨0, instrs, regs⟩).cycles k = .ok p ∧
      ∀ i : Fin 5,
        (i.val < k →
          (instrs[k - 1 - i.val]?).map MemInstruction.String
            = some (p.stages i).instruction) ∧
        (k ≤ i.val → (p.stages i).instruction = "")) ∧
    (∃ q, (NewPipeline ⟨0, [a, b, c], regs⟩).cycles 3 = .ok q ∧
      q.printStages =
        [ "Pipeline Stages (PC: 3):\n",
          "IF: " ++ c.String ++ "\n",
          "ID: " ++ b.String ++ "\n",
          "EX: " ++ a.String ++ "\n",
          "MEM: \n",
          "WB: \n",
          "\n" ]) := by
  constructor
  · refine ⟨stateAfter instrs k, ?_, fun i => tokenAfter_spec instrs k hkN i⟩
    rw [newPipeline_eq_stateAfter, cycles_stateAfter instrs hlen k 0 (by omega)]
    simp
  · refine ⟨stateAfter [a, b, c] 3, ?_, ?_⟩
    · rw [newPipeline_eq_stateAfter]
      exact cycles_stateAfter [a, b, c] (by simp) 3 0 (by simp)
    · rw [printStages_stateAfter]
      rfl

/-- Witness of C2: the sample program after its 2nd cycle. -/
theorem stages_after_kth_cycle_witness :
    sampleProgram.length < 9223372036854775808 ∧ 2 ≤ sampleProgram.length ∧
    ((∃ p, (NewPipeline ⟨0, sampleProgram, fun _ => 0⟩).cycles 2 = .ok p ∧
      ∀ i : Fin 5,
        (i.val < 2 →
          (sampleProgram[2 - 1 - i.val]?).map MemInstruction.String
            = some (p.stages i).instruction) ∧
        (2 ≤ i.val → (p.stages i).instruction = "")) ∧
    (∃ q, (NewPipeline ⟨0, [⟨"LOAD R1"⟩, ⟨"ADD R2"⟩, ⟨"STORE R3"⟩], fun _ => 0⟩).cycles 3
        = .ok q ∧
      q.printStages =
        [ "Pipeline Stages (PC: 3):\n",
          "IF: " ++ MemInstruction.String ⟨"STORE R3"⟩ ++ "\n",
          "ID: " ++ MemInstruction.String ⟨"ADD R2"⟩ ++ "\n",
          "EX: " ++ MemInstruction.String ⟨"LOAD R1"⟩ ++ "\n",
          "MEM: \n",
          "WB: \n",
          "\n" ])) :=
  ⟨by decide, by decide,
    stages_after_kth_cycle sampleProgram (fun _ => 0) 2 ⟨"LOAD R1"⟩ ⟨"ADD R2"⟩ ⟨"STORE R3"⟩
      (by decide) (by decide)⟩

/-- C3, as stated, fails: on the three-instruction sample program no amount of fuel lets
`Run` reach a 5th cycle (`k + 4` for `k = 1`), and when `Run` halts after its 3 cycles
the first instruction's token is in EX, WB is empty and no report shows it in WB. -/
theorem first_token_not_in_WB_counterexample :
    (¬ ∃ fuel p output n,
        (NewPipeline ⟨0, sampleProgram, fun _ => 0⟩).Run fuel = .halted p output n ∧
        1 + 4 ≤ n) ∧
    (∃ p output,
        (NewPipeline ⟨0, sampleProgram, fun _ => 0⟩).Run 3 = .halted p output 3 ∧
        (p.stages 2).instruction = "ADD R1, R2, R3" ∧
        (p.stages 4).instruction = "" ∧
        "WB: ADD R1, R2, R3\n" ∉ output) := by
  constructor
  · rintro ⟨fuel, p, output, n, h, hn⟩
    by_cases hf : 3 ≤ fuel
    · rw [Pipeline.Run, newPipeline_eq_stateAfter,
        runLoop_stateAfter sampleProgram (by decide) 3 0 fuel [] 0 (by decide) hf] at h
      injection h with _ _ h3
      omega
    · have h012 : fuel = 0 ∨ fuel = 1 ∨ fuel = 2 := by omega
      rcases h012 with rfl | rfl | rfl
      · have e : (NewPipeline ⟨0, sampleProgram, fun _ => 0⟩).Run 0 = .outOfFuel := rfl
        rw [e] at h
        cases h
      · have e : (NewPipeline ⟨0, sampleProgram, fun _ => 0⟩).Run 1 = .outOfFuel := rfl
        rw [e] at h
        cases h
      · have e : (NewPipeline ⟨0, sampleProgram, fun _ => 0⟩).Run 2 = .outOfFuel := rfl
        rw [e] at h
        cases h
  · refine ⟨stateAfter sampleProgram 3,
      reportsFrom sampleProgram 0 3 ++ [(stateAfter sampleProgram 3).totalLine], ?_, ?_, ?_, ?_⟩
    · rw [Pipeline.Run, newPipeline_eq_stateAfter,
        runLoop_stateAfter sampleProgram (by decide) 3 0 3 [] 0 (by decide) (by decide)]
      simp [show sampleProgram.length = 3 from rfl]
    · decide
    · decide
    · decide

/-- C3, amended: in a run over `N` instructions from `Pc = 0`, which halts after `N`
cycles, the token fetched into IF at cycle `k` (`1 ≤ k ≤ N`) is in stage `j` after cycle
`k + j` for every `j ≤ 4` with `k + j ≤ N`, so it is in WB after cycle `k + 4` whenever
`k + 4 ≤ N`; when `k + 4` exceeds `N` the run halts first, with the token in stage
`N - k`. -/
theorem fetched_token_propagates (instrs : List MemInstruction) (regs : Fin 32 → Int)
    (fuel k : Nat) (hlen : instrs.length < 9223372036854775808)
    (hfuel : instrs.length ≤ fuel) (hk1 : 1 ≤ k) (hkN : k ≤ instrs.length) :
    ∃ p output token,
      (instrs[k - 1]?).map MemInstruction.String = some token ∧
      (NewPipeline ⟨0, instrs, regs⟩).Run fuel = .halted p output instrs.length ∧
      (∀ j : Fin 5, k + j.val ≤ instrs.length →
        ∃ q, (NewPipeline ⟨0, instrs, regs⟩).cycles (k + j.val) = .ok q ∧
          (q.stages j).instruction = token) ∧
      (instrs.length < k + 4 →
        ∃ h : instrs.length - k < 5, (p.stages ⟨instrs.length - k, h⟩).instruction = token) := by
  have hget : instrs[k - 1]? = some instrs[k - 1] := List.getElem?_eq_getElem (by omega)
  refine ⟨stateAfter instrs instrs.length,
    reportsFrom instrs 0 instrs.length ++ [(stateAfter instrs instrs.length).totalLine],
    instrs[k - 1].String, by simp [hget], ?_, ?_, ?_⟩
  · rw [Pipeline.Run, newPipeline_eq_stateAfter,
      runLoop_stateAfter instrs hlen instrs.length 0 fuel [] 0 (by omega) hfuel]
    simp
  · intro j hj
    refine ⟨stateAfter instrs (k + j.val), ?_, ?_⟩
    · rw [newPipeline_eq_stateAfter, cycles_stateAfter instrs hlen (k + j.val) 0 (by omega)]
      simp
    · have hspec := (tokenAfter_spec instrs (k + j.val) hj j).1 (by omega)
      have e : k + j.val - 1 - j.val = k - 1 := by omega
      rw [e, hget] at hspec
      simpa [stateAfter] using hspec.symm
  · intro hN
    refine ⟨by omega, ?_⟩
    have hspec := (tokenAfter_spec instrs instrs.length (le_refl _)
      ⟨instrs.length - k, by omega⟩).1 (by simp only; omega)
    have e : instrs.length - 1 - (instrs.length - k) = k - 1 := by omega
    simp only [e, hget] at hspec
    simpa [stateAfter] using hspec.symm

/-- Witness of the amended C3: the 1st instruction of the sample program. -/
theorem fetched_token_propagates_witness :
    sampleProgram.length < 9223372036854775808 ∧ sampleProgram.length ≤ 3 ∧ 1 ≤ 1 ∧
    1 ≤ sampleProgram.length ∧
    ∃ p output token,
      (sampleProgram[1 - 1]?).map MemInstruction.String = some token ∧
      (NewPipeline ⟨0, sampleProgram, fun _ => 0⟩).Run 3
        = .halted p output sampleProgram.length ∧
      (∀ j : Fin 5, 1 + j.val ≤ sampleProgram.length →
        ∃ q, (NewPipeline ⟨0, sampleProgram, fun _ => 0⟩).cycles (1 + j.val) = .ok q ∧
          (q.stages j).instruction = token) ∧
      (sampleProgram.length < 1 + 4 →
        ∃ h : sampleProgram.length - 1 < 5,
          (p.stages ⟨sampleProgram.length - 1, h⟩).instruction = token) :=
  ⟨by decide, by decide, by decide, by decide,
    fetched_token_propagates sampleProgram (fun _ => 0) 3 1 (by decide) (by decide)
      (by decide) (by decide)⟩

/-! ## Program counter and branch policy -/

/-- C4, as stated, fails in its example: in the sample program the 2nd instruction is
branch-classified, and after the cycle that fetches and decodes it (the 2nd) the program
counter is 2, not 3; and when the branch-classified 2nd instruction is the last one, the
run halts with the program counter at 2, which is 3 after no cycle of the run. -/
theorem pc_after_second_instruction_counterexample :
    (∃ q, (NewPipeline ⟨0, sampleProgram, fun _ => 0⟩).cycles 2 = .ok q ∧
      (sampleProgram[1]?).map MemInstruction.String = some (q.stages 0).instruction ∧
      stringsContains (q.stages 0).instruction "BRANCH" = true ∧
      q.pc = 2 ∧ q.pc ≠ 3) ∧
    (∃ p output q₁, (NewPipeline ⟨0, branchLastProgram, fun _ => 0⟩).Run 2
        = .halted p output 2 ∧
      (NewPipeline ⟨0, branchLastProgram, fun _ => 0⟩).cycles 1 = .ok q₁ ∧
      (NewPipeline ⟨0, branchLastProgram, fun _ => 0⟩).cycles 2 = .ok p ∧
      stringsContains (p.stages 0).instruction "BRANCH" = true ∧
      q₁.pc = 1 ∧ p.pc = 2) :=
  ⟨⟨_, rfl, by decide, by decide, by decide, by decide⟩,
    ⟨_, _, _, rfl, rfl, rfl, by decide, by decide, by decide⟩⟩

/-- C4, amended: on every pipeline state whose program counter is within bounds
(`0 ≤ pc < N`) one cycle succeeds and sets the program counter to its previous value
plus 1, whatever the fetched token (with or without the marker `BRANCH`); in particular
when the 2nd instruction of a run from `Pc = 0` is branch-classified, the program
counter is 2 after the cycle that fetches and decodes it. -/
theorem cycle_advances_pc_by_one (p : Pipeline) (instrs : List MemInstruction)
    (regs : Fin 32 → Int) (m : MemInstruction)
    (hlen : p.instructions.length < 9223372036854775808)
    (h0 : 0 ≤ p.pc) (hN : p.pc < (p.instructions.length : Int))
    (hlen2 : instrs.length < 9223372036854775808)
    (hm : instrs[1]? = some m) (hb : stringsContains m.String "BRANCH" = true) :
    (∃ q token, p.cycle = .ok q ∧
      (p.instructions[p.pc.toNat]?).map MemInstruction.String = some token ∧
      (q.stages 0).instruction = token ∧ q.pc = p.pc + 1) ∧
    (∃ q, (NewPipeline ⟨0, instrs, regs⟩).cycles 2 = .ok q ∧
      (q.stages 0).instruction = m.String ∧
      stringsContains (q.stages 0).instruction "BRANCH" = true ∧ q.pc = 2) := by
  constructor
  · obtain ⟨x, hx, hix⟩ := indexSlice_of_inBounds p.instructions p.pc h0 hN
    have hfetch : ({ p with stages := shiftLoop 4 p.stages } : Pipeline).fetch
        = .ok x.String := by
      simp only [Pipeline.fetch, hN, if_true, hix]
    refine ⟨_, x.String, cycle_of_fetch p x.String hfetch, by simp [hx], ?_, ?_⟩
    · simp only [decode_stages, PipelineStage.Process, Function.update_same]
    · simp only [decode_pc]
      exact wrapInt64_eq_self (by omega) (by omega)
  · have h2 : 2 ≤ instrs.length := by
      by_contra hc
      rw [List.getElem?_eq_none (by omega)] at hm
      cases hm
    have htok : ((stateAfter instrs 2).stages 0).instruction = m.String := by
      simp [stateAfter, tokenAfter, hm]
    refine ⟨stateAfter instrs 2, ?_, htok, by rw [htok]; exact hb, rfl⟩
    rw [newPipeline_eq_stateAfter]
    exact cycles_stateAfter instrs hlen2 2 0 (by omega)

/-- Witness of the amended C4: the sample program before its 2nd cycle. -/
theorem cycle_advances_pc_by_one_witness :
    (stateAfter sampleProgram 1).instructions.length < 9223372036854775808 ∧
    0 ≤ (stateAfter sampleProgram 1).pc ∧
    (stateAfter sampleProgram 1).pc < ((stateAfter sampleProgram 1).instructions.length : Int) ∧
    sampleProgram[1]? = some ⟨"BRANCH R1, 8"⟩ ∧
    stringsContains (MemInstruction.String ⟨"BRANCH R1, 8"⟩) "BRANCH" = true ∧
    (∃ q token, (stateAfter sampleProgram 1).cycle = .ok q ∧
      ((stateAfter sampleProgram 1).instructions[(stateAfter sampleProgram 1).pc.toNat]?).map
        MemInstruction.String = some token ∧
      (q.stages 0).instruction = token ∧ q.pc = (stateAfter sampleProgram 1).pc + 1) ∧
    (∃ q, (NewPipeline ⟨0, sampleProgram, fun _ => 0⟩).cycles 2 = .ok q ∧
      (q.stages 0).instruction = MemInstruction.String ⟨"BRANCH R1, 8"⟩ ∧
      stringsContains (q.stages 0).instruction "BRANCH" = true ∧ q.pc = 2) :=
  ⟨by decide, by decide, by decide, by decide, by decide,
    cycle_advances_pc_by_one (stateAfter sampleProgram 1) sampleProgram (fun _ => 0)
      ⟨"BRANCH R1, 8"⟩ (by decide) (by decide) (by decide) (by decide) (by decide)
      (by decide)⟩

/-- C5: `HandleBranch` called with condition `true` records the decision taken: it
stores the signal it is given. -/
theorem handleBranch_true_records_taken :
    (ControlUnit.HandleBranch { branchTaken := false } true).branchTaken = true := rfl

/-! ## Register file -/

/-- C6: starting from a fresh register file, after every finite sequence of `Write` calls
with in-range indices and arbitrary values (writes to index 0 included) no call has
panicked and `Read(0)` returns 0. -/
theorem read_zero_after_writes (ws : List (Int × Int))
    (hin : ∀ w ∈ ws, 0 ≤ w.1 ∧ w.1 < 32) :
    (RegisterFile.zero.writeAll ws).1 = .ok () ∧
    ((RegisterFile.zero.writeAll ws).2.Read 0).1 = .ok 0 := by
  refine ⟨writeAll_ok ws _ hin, ?_⟩
  have h := writeAll_register_zero ws RegisterFile.zero
  simp only [RegisterFile.Read]
  rw [dif_pos (by decide)]
  exact congrArg Except.ok h

/-- Witness of C6: writes to registers 0, 5, 0 and 31. -/
theorem read_zero_after_writes_witness :
    (∀ w ∈ [((0 : Int), (7 : Int)), (5, 9), (0, -3), (31, 1)], 0 ≤ w.1 ∧ w.1 < 32) ∧
    (RegisterFile.zero.writeAll [(0, 7), (5, 9), (0, -3), (31, 1)]).1 = .ok () ∧
    ((RegisterFile.zero.writeAll [(0, 7), (5, 9), (0, -3), (31, 1)]).2.Read 0).1 = .ok 0 :=
  ⟨by decide, read_zero_after_writes [(0, 7), (5, 9), (0, -3), (31, 1)] (by decide)⟩

/-- C7: for every register file, every index `i` with `1 ≤ i ≤ 31` and every value `v`,
`Write(i, v)` returns and `Read(i)` performed right after it returns `v`. -/
theorem read_after_write (rf : RegisterFile) (i v : Int) (h1 : 1 ≤ i) (h31 : i ≤ 31) :
    (rf.Write i v).1 = .ok () ∧ ((rf.Write i v).2.Read i).1 = .ok v := by
  have hr : 0 ≤ i ∧ i < 32 := ⟨by omega, by omega⟩
  have hne : i ≠ 0 := by omega
  refine ⟨write_ok_of_inRange rf i v hr, ?_⟩
  simp only [RegisterFile.Write, RegisterFile.Read, hne, ne_eq, not_false_eq_true, if_true,
    dif_pos hr, Function.update_same]

/-- Witness of C7: register 31 of the fresh register file. -/
theorem read_after_write_witness :
    (1 : Int) ≤ 31 ∧ (31 : Int) ≤ 31 ∧
    (RegisterFile.zero.Write 31 (-42)).1 = .ok () ∧
    ((RegisterFile.zero.Write 31 (-42)).2.Read 31).1 = .ok (-42) :=
  ⟨by decide, by decide, read_after_write RegisterFile.zero 31 (-42) (by decide) (by decide)⟩

/-- C8: for an index outside `[0, 31]`, `Read` panics with the index error instead of
returning a value and `Write` panics with the index error, and both leave all registers
unchanged; for an index inside `[0, 31]` neither panics. -/
theorem register_index_check (rf : RegisterFile) (index v : Int) :
    ((index < 0 ∨ 32 ≤ index) →
      (rf.Read index).1 = .error (.indexOutOfRange index 32) ∧
      (rf.Write index v).1 = .error (.indexOutOfRange index 32) ∧
      (rf.Write index v).2.registers = rf.registers ∧
      (rf.Read index).2.registers = rf.registers) ∧
    ((0 ≤ index ∧ index < 32) →
      (∃ x, (rf.Read index).1 = .ok x) ∧ (rf.Write index v).1 = .ok ()) := by
  constructor
  · intro hout
    have hr : ¬ (0 ≤ index ∧ index < 32) := by omega
    have hne : index ≠ 0 := by omega
    simp only [RegisterFile.Read, RegisterFile.Write, dif_neg hr, hne, ne_eq,
      not_false_eq_true, if_true, and_self]
  · intro hr
    refine ⟨⟨rf.registers ⟨index.toNat, by omega⟩, ?_⟩, write_ok_of_inRange rf index v hr⟩
    simp only [RegisterFile.Read, dif_pos hr]

/-- Witness of C8: indices 32 and -1 are rejected, index 31 is accepted. -/
theorem register_index_check_witness :
    ((RegisterFile.zero.Read 32).1 = .error (.indexOutOfRange 32 32) ∧
      (RegisterFile.zero.Write 32 7).1 = .error (.indexOutOfRange 32 32) ∧
      (RegisterFile.zero.Write 32 7).2.registers = RegisterFile.zero.registers ∧
      (RegisterFile.zero.Read 32).2.registers = RegisterFile.zero.registers) ∧
    ((RegisterFile.zero.Read (-1)).1 = .error (.indexOutOfRange (-1) 32) ∧
      (RegisterFile.zero.Write (-1) 7).1 = .error (.indexOutOfRange (-1) 32) ∧
      (RegisterFile.zero.Write (-1) 7).2.registers = RegisterFile.zero.registers ∧
      (RegisterFile.zero.Read (-1)).2.registers = RegisterFile.zero.registers) ∧
    ((∃ x, (RegisterFile.zero.Read 31).1 = .ok x) ∧ (RegisterFile.zero.Write 31 7).1 = .ok ()) :=
  ⟨(register_index_check RegisterFile.zero 32 7).1 (Or.inr (by decide)),
    (register_index_check RegisterFile.zero (-1) 7).1 (Or.inl (by decide)),
    (register_index_check RegisterFile.zero 31 7).2 ⟨by decide, by decide⟩⟩

/-! ## Output of `Run` -/

/-- C9: for the empty instruction sequence with `Pc = 0`, `Run` calls `cycle` zero times,
writes no header and no stage text, and its whole output is the final text reporting the
count 0; the pipeline is left as `NewPipeline` built it. -/
theorem run_empty_program (regs : Fin 32 → Int) (fuel : Nat) :
    (NewPipeline ⟨0, [], regs⟩).Run fuel =
      .halted (NewPipeline ⟨0, [], regs⟩) ["Total de instruções executadas: 0\n"] 0 := by
  unfold Pipeline.Run Pipeline.runLoop
  rw [if_neg (by simp [NewPipeline])]
  rfl

/-- C10: for every instruction sequence of length `N` run from `Pc = 0`, the texts `Run`
writes are, for `k = 1..N` in order, the header with the program counter after cycle `k`
(which is `k`), the five stage texts `IF`, `ID`, `EX`, `MEM`, `WB` with the tokens of the
pipeline after cycle `k`, and the empty `Println`; then the one final text with the count
`N`. Each report is the `printStages` of the state after the `k`-th cycle. -/
theorem run_output_format (instrs : List MemInstruction) (regs : Fin 32 → Int)
    (fuel : Nat) (hlen : instrs.length < 9223372036854775808)
    (hfuel : instrs.length ≤ fuel) :
    (∃ p, (NewPipeline ⟨0, instrs, regs⟩).Run fuel =
      .halted p
        ((List.range instrs.length).flatMap (fun j =>
            [ "Pipeline Stages (PC: " ++ toString ((j + 1 : Nat) : Int) ++ "):\n",
              "IF: " ++ tokenAfter instrs (j + 1) 0 ++ "\n",
              "ID: " ++ tokenAfter instrs (j + 1) 1 ++ "\n",
              "EX: " ++ tokenAfter instrs (j + 1) 2 ++ "\n",
              "MEM: " ++ tokenAfter instrs (j + 1) 3 ++ "\n",
              "WB: " ++ tokenAfter instrs (j + 1) 4 ++ "\n",
              "\n" ])
          ++ ["Total de instruções executadas: " ++ toString (instrs.length : Int) ++ "\n"])
        instrs.length) ∧
    (∀ j < instrs.length, ∃ q,
      (NewPipeline ⟨0, instrs, regs⟩).cycles (j + 1) = .ok q ∧
      q.pc = ((j + 1 : Nat) : Int) ∧
      (∀ i : Fin 5, (q.stages i).instruction = tokenAfter instrs (j + 1) i) ∧
      q.printStages =
        [ "Pipeline Stages (PC: " ++ toString ((j + 1 : Nat) : Int) ++ "):\n",
          "IF: " ++ tokenAfter instrs (j + 1) 0 ++ "\n",
          "ID: " ++ tokenAfter instrs (j + 1) 1 ++ "\n",
          "EX: " ++ tokenAfter instrs (j + 1) 2 ++ "\n",
          "MEM: " ++ tokenAfter instrs (j + 1) 3 ++ "\n",
          "WB: " ++ tokenAfter instrs (j + 1) 4 ++ "\n",
          "\n" ]) := by
  constructor
  · refine ⟨stateAfter instrs instrs.length, ?_⟩
    rw [Pipeline.Run, newPipeline_eq_stateAfter,
      runLoop_stateAfter instrs hlen instrs.length 0 fuel [] 0 (by omega) hfuel,
      reportsFrom_eq_flatMap]
    simp [reportAfter, Pipeline.totalLine, stateAfter]
  · intro j hj
    refine ⟨stateAfter instrs (j + 1), ?_, rfl, fun i => rfl, ?_⟩
    · rw [newPipeline_eq_stateAfter, cycles_stateAfter instrs hlen (j + 1) 0 (by omega)]
      simp
    · rw [printStages_stateAfter]
      rfl

/-- Witness of C10 on the three-instruction sample program. -/
theorem run_output_format_witness :
    sampleProgram.length < 9223372036854775808 ∧ sampleProgram.length ≤ 5 ∧
    ∃ p, (NewPipeline ⟨0, sampleProgram, fun _ => 0⟩).Run 5 =
      .halted p
        ((List.range sampleProgram.length).flatMap (fun j =>
            [ "Pipeline Stages (PC: " ++ toString ((j + 1 : Nat) : Int) ++ "):\n",
              "IF: " ++ tokenAfter sampleProgram (j + 1) 0 ++ "\n",
              "ID: " ++ tokenAfter sampleProgram (j + 1) 1 ++ "\n",
              "EX: " ++ tokenAfter sampleProgram (j + 1) 2 ++ "\n",
              "MEM: " ++ tokenAfter sampleProgram (j + 1) 3 ++ "\n",
              "WB: " ++ tokenAfter sampleProgram (j + 1) 4 ++ "\n",
              "\n" ])
          ++ ["Total de instruções executadas: " ++ toString (sampleProgram.length : Int)
                ++ "\n"])
        sampleProgram.length :=
  ⟨by decide, by decide,
    (run_output_format sampleProgram (fun _ => 0) 5 (by decide) (by decide)).1⟩

/-! ## One cycle on an arbitrary pipeline state -/

theorem cycleWith_false (p : Pipeline) : p.cycleWith false = p.cycle := rfl

theorem decodeWith_false (p : Pipeline) (token : String) :
    p.decodeWith false token = p.decode token := rfl

theorem decodeWith_fields (c : Bool) (p : Pipeline) (token : String) :
    (p.decodeWith c token).pc = wrapInt64 (p.pc + 1) ∧
    (p.decodeWith c token).stages = p.stages ∧
    (p.decodeWith c token).instructionCount = p.instructionCount ∧
    (p.decodeWith c token).instructions = p.instructions ∧
    (p.decodeWith c token).registers = p.registers := by
  unfold Pipeline.decodeWith
  split
  · dsimp only
    split <;> exact ⟨rfl, rfl, rfl, rfl, rfl⟩
  · exact ⟨rfl, rfl, rfl, rfl, rfl⟩

theorem decodeWith_controlUnit (c : Bool) (p : Pipeline) (token : String) :
    (p.decodeWith c token).controlUnit = p.controlUnit ∨
    (p.decodeWith c token).controlUnit = { branchTaken := c } := by
  unfold Pipeline.decodeWith
  split
  · dsimp only
    split <;> exact Or.inr rfl
  · exact Or.inl rfl

theorem fetch_of_nonneg (p : Pipeline) (h0 : 0 ≤ p.pc) : ∃ token, p.fetch = .ok token := by
  unfold Pipeline.fetch
  by_cases hN : p.pc < (p.instructions.length : Int)
  · obtain ⟨x, _, hix⟩ := indexSlice_of_inBounds p.instructions p.pc h0 hN
    exact ⟨x.String, by simp only [hN, if_true, hix]⟩
  · exact ⟨"", by simp only [hN, if_false]⟩

theorem fetch_of_neg (p : Pipeline) (h : p.pc < 0) :
    p.fetch = .error (.indexOutOfRange p.pc p.instructions.length) := by
  have hN : p.pc < (p.instructions.length : Int) := by omega
  have hneg : ¬ 0 ≤ p.pc := by omega
  simp only [Pipeline.fetch, hN, if_true, indexSlice, hneg, if_false]

theorem cycleWith_of_fetch (c : Bool) (p : Pipeline) (token : String)
    (h : ({ p with stages := shiftLoop 4 p.stages } : Pipeline).fetch = .ok token) :
    p.cycleWith c = .ok
      (let shifted := shiftLoop 4 p.stages
      let p1 : Pipeline :=
        { p with stages := Function.update shifted 0 ((shifted 0).Process token) }
      let p2 := p1.decodeWith c token
      { p2 with instructionCount := wrapInt64 (p2.instructionCount + 1) }) := by
  unfold Pipeline.cycleWith
  simp only [h]

theorem cycleWith_error_of_fetch (c : Bool) (p : Pipeline) (e : RuntimeError)
    (h : ({ p with stages := shiftLoop 4 p.stages } : Pipeline).fetch = .error e) :
    p.cycleWith c = .error e := by
  unfold Pipeline.cycleWith
  simp only [h]

/-- What a returning cycle leaves behind, field by field. -/
theorem cycleWith_ok_fields (c : Bool) (p q : Pipeline) (h : p.cycleWith c = .ok q) :
    (∃ token, q.stages
        = Function.update (shiftLoop 4 p.stages) 0 ((shiftLoop 4 p.stages 0).Process token)) ∧
    q.pc = wrapInt64 (p.pc + 1) ∧
    q.instructionCount = wrapInt64 (p.instructionCount + 1) ∧
    q.instructions = p.instructions ∧
    q.registers = p.registers ∧
    (q.controlUnit = p.controlUnit ∨ q.controlUnit = { branchTaken := c }) := by
  cases hf : ({ p with stages := shiftLoop 4 p.stages } : Pipeline).fetch with
  | error e =>
    rw [cycleWith_error_of_fetch c p e hf] at h
    cases h
  | ok token =>
    rw [cycleWith_of_fetch c p token hf] at h
    injection h with h
    subst h
    have hd := fun stages => decodeWith_fields c { p with stages := stages } token
    obtain ⟨h1, h2, h3, h4, h5⟩ := hd
      (Function.update (shiftLoop 4 p.stages) 0 ((shiftLoop 4 p.stages 0).Process token))
    refine ⟨⟨token, h2⟩, h1, ?_, h4, h5, ?_⟩
    · simp only [h3]
    · exact decodeWith_controlUnit c _ token

theorem cycleWith_ok_of_nonneg (c : Bool) (p : Pipeline) (h0 : 0 ≤ p.pc) :
    ∃ q, p.cycleWith c = .ok q := by
  obtain ⟨token, ht⟩ := fetch_of_nonneg { p with stages := shiftLoop 4 p.stages } h0
  exact ⟨_, cycleWith_of_fetch c p token ht⟩

theorem cycle_error_of_neg (p : Pipeline) (h : p.pc < 0) :
    p.cycle = .error (.indexOutOfRange p.pc p.instructions.length) :=
  cycleWith_error_of_fetch false p _
    (fetch_of_neg { p with stages := shiftLoop 4 p.stages } h)

theorem shiftLoop_four_apply (stages : Fin 5 → PipelineStage) :
    (∀ i : Fin 5, (shiftLoop 4 stages i).stageName = (stages i).stageName) ∧
    (∀ (i : Nat) (h : i + 1 < 5),
      (shiftLoop 4 stages ⟨i + 1, h⟩).instruction = (stages ⟨i, by omega⟩).instruction) ∧
    (shiftLoop 4 stages 0).instruction = (stages 0).instruction := by
  rw [shiftLoop_four]
  refine ⟨?_, ?_, rfl⟩
  · intro i
    fin_cases i <;> rfl
  · intro i h
    have hi : i = 0 ∨ i = 1 ∨ i = 2 ∨ i = 3 := by omega
    rcases hi with rfl | rfl | rfl | rfl <;> rfl

theorem pipeline_eq_of_fields (a b : Pipeline) (h1 : a.instructions = b.instructions)
    (h2 : a.registers = b.registers) (h3 : a.controlUnit = b.controlUnit)
    (h4 : a.stages = b.stages) (h5 : a.pc = b.pc)
    (h6 : a.instructionCount = b.instructionCount) : a = b := by
  cases a
  cases b
  simp only [Pipeline.mk.injEq]
  exact ⟨h1, h2, h3, h4, h5, h6⟩

theorem decodeWith_withoutFlag (c : Bool) (p : Pipeline) (token : String) :
    (p.decodeWith c token).withoutFlag = { p.withoutFlag with pc := wrapInt64 (p.pc + 1) } := by
  obtain ⟨h1, h2, h3, h4, h5⟩ := decodeWith_fields c p token
  exact pipeline_eq_of_fields _ _ h4 h5 rfl h2 h1 h3

theorem cycleWith_withoutFlag (c : Bool) (p : Pipeline) :
    (p.cycleWith c).map Pipeline.withoutFlag = (p.cycle).map Pipeline.withoutFlag := by
  cases hf : ({ p with stages := shiftLoop 4 p.stages } : Pipeline).fetch with
  | error e =>
    rw [cycleWith_error_of_fetch c p e hf, ← cycleWith_false,
      cycleWith_error_of_fetch false p e hf]
  | ok token =>
    rw [cycleWith_of_fetch c p token hf, ← cycleWith_false, cycleWith_of_fetch false p token hf]
    simp only [Except.map, Except.ok.injEq]
    have hd := fun b stages => decodeWith_fields b { p with stages := stages } token
    obtain ⟨a1, a2, a3, a4, a5⟩ := hd c
      (Function.update (shiftLoop 4 p.stages) 0 ((shiftLoop 4 p.stages 0).Process token))
    obtain ⟨b1, b2, b3, b4, b5⟩ := hd false
      (Function.update (shiftLoop 4 p.stages) 0 ((shiftLoop 4 p.stages 0).Process token))
    apply pipeline_eq_of_fields
    · exact a4.trans b4.symm
    · exact a5.trans b5.symm
    · rfl
    · exact a2.trans b2.symm
    · exact a1.trans b1.symm
    · simp only [Pipeline.withoutFlag, a3, b3]

/-! ## The shift and the two decode arms -/

/-- C11: on every pipeline state, whatever the five stages hold, the descending shift
loop of `cycle` puts into stage `i` the content stage `i - 1` held before, for `i` in
`1..4`, and keeps the five stage names. A cycle returns on every state with `pc ≥ 0`,
and when it returns stages `1..4` hold, in order, exactly the former contents of stages
`0..3` (every token one slot nearer WB, none duplicated, the old WB content dropped) under
unchanged stage names. -/
theorem cycle_shifts_stages (p : Pipeline) :
    ((∀ (i : Nat) (h : i + 1 < 5),
        (shiftLoop 4 p.stages ⟨i + 1, h⟩).instruction = (p.stages ⟨i, by omega⟩).instruction) ∧
      (∀ i : Fin 5, (shiftLoop 4 p.stages i).stageName = (p.stages i).stageName)) ∧
    (0 ≤ p.pc → ∃ q, p.cycle = .ok q) ∧
    (∀ q, p.cycle = .ok q →
      (∀ (i : Nat) (h : i + 1 < 5),
        (q.stages ⟨i + 1, h⟩).instruction = (p.stages ⟨i, by omega⟩).instruction) ∧
      [q.stages 1, q.stages 2, q.stages 3, q.stages 4].map PipelineStage.instruction
        = [p.stages 0, p.stages 1, p.stages 2, p.stages 3].map PipelineStage.instruction ∧
      (∀ i : Fin 5, (q.stages i).stageName = (p.stages i).stageName)) := by
  obtain ⟨hname, hshift, _⟩ := shiftLoop_four_apply p.stages
  refine ⟨⟨hshift, hname⟩, cycleWith_ok_of_nonneg false p, ?_⟩
  intro q hq
  obtain ⟨⟨token, hst⟩, _⟩ := cycleWith_ok_fields false p q hq
  have hs : ∀ (i : Nat) (h : i + 1 < 5),
      (q.stages ⟨i + 1, h⟩).instruction = (p.stages ⟨i, by omega⟩).instruction := by
    intro i h
    have hne : (⟨i + 1, h⟩ : Fin 5) ≠ 0 := by
      intro hc
      have := congrArg Fin.val hc
      simp at this
    rw [hst, Function.update_noteq hne]
    exact hshift i h
  refine ⟨hs, ?_, ?_⟩
  · have h0 := hs 0 (by omega)
    have h1 := hs 1 (by omega)
    have h2 := hs 2 (by omega)
    have h3 := hs 3 (by omega)
    simp only [List.map_cons, List.map_nil]
    exact congrArg₂ List.cons h0 (congrArg₂ List.cons h1 (congrArg₂ List.cons h2
      (congrArg₂ List.cons h3 rfl)))
  · intro i
    rw [hst]
    by_cases hi : i = 0
    · subst hi
      rw [Function.update_same]
      exact hname 0
    · rw [Function.update_noteq hi]
      exact hname i

/-- Witness of C11: one cycle on a pipeline with a token in every stage. -/
theorem cycle_shifts_stages_witness :
    0 ≤ busyPipeline.pc ∧
    ∃ q, busyPipeline.cycle = .ok q ∧
      [q.stages 1, q.stages 2, q.stages 3, q.stages 4].map PipelineStage.instruction
        = ["t0", "t1", "t2", "t3"] ∧
      (List.finRange 5).map (fun i => (q.stages i).stageName)
        = ["IF", "ID", "EX", "MEM", "WB"] :=
  ⟨by decide,
    match (cycle_shifts_stages busyPipeline).2.1 (by decide) with
    | ⟨q, hq⟩ =>
      ⟨q, hq, (((cycle_shifts_stages busyPipeline).2.2 q hq).2.1).trans (by decide),
        by
          have hn := ((cycle_shifts_stages busyPipeline).2.2 q hq).2.2
          have h5 : List.finRange 5 = [0, 1, 2, 3, 4] := by decide
          simp only [h5, List.map_cons, List.map_nil, hn]
          decide⟩⟩

/-- C12: `resolveBranch` returns the program counter plus 1 in Go's `int` arithmetic,
the value `p.pc++` leaves, and exactly `pc + 1` below the largest `int`. A decode step
and a whole cycle given the condition `true`, which on a branch token run the taken arm
`pc = resolveBranch(token)`, leave the same instructions, registers, stages, program
counter and count as with the condition `false` of the source, which runs `pc++`: the
two differ at most in the `branchTaken` flag, and panic on the same states. -/
theorem taken_arm_matches_not_taken (p : Pipeline) (token : String) :
    p.resolveBranch token = wrapInt64 (p.pc + 1) ∧
    (-9223372036854775808 ≤ p.pc → p.pc < 9223372036854775807 →
      p.resolveBranch token = p.pc + 1) ∧
    (token ≠ "" → stringsContains token "BRANCH" = true →
      p.decodeArm true token = .taken ∧ p.decodeArm false token = .notTaken) ∧
    (p.decodeWith true token).withoutFlag = (p.decode token).withoutFlag ∧
    (p.cycleWith true).map Pipeline.withoutFlag = (p.cycle).map Pipeline.withoutFlag ∧
    (0 ≤ p.pc → ∃ qT qF, p.cycleWith true = .ok qT ∧ p.cycle = .ok qF ∧
      qT.pc = qF.pc ∧ qT.stages = qF.stages ∧ qT.instructionCount = qF.instructionCount ∧
      qT.instructions = qF.instructions ∧ qT.registers = qF.registers) := by
  refine ⟨rfl, ?_, ?_, ?_, cycleWith_withoutFlag true p, ?_⟩
  · intro h1 h2
    exact wrapInt64_eq_self (by omega) (by omega)
  · intro h1 h2
    simp [Pipeline.decodeArm, h1, h2, ControlUnit.HandleBranch]
  · rw [decodeWith_withoutFlag, ← decodeWith_false, decodeWith_withoutFlag]
  · intro h0
    obtain ⟨qT, hT⟩ := cycleWith_ok_of_nonneg true p h0
    obtain ⟨qF, hF⟩ := cycleWith_ok_of_nonneg false p h0
    obtain ⟨⟨tT, sT⟩, pT, cT, iT, rT, _⟩ := cycleWith_ok_fields true p qT hT
    obtain ⟨⟨tF, sF⟩, pF, cF, iF, rF, _⟩ := cycleWith_ok_fields false p qF hF
    have hw := cycleWith_withoutFlag true p
    rw [hT, ← cycleWith_false, hF] at hw
    simp only [Except.map, Except.ok.injEq] at hw
    have hst : qT.stages = qF.stages := by
      have hs := congrArg Pipeline.stages hw
      exact hs
    exact ⟨qT, qF, hT, hF, pT.trans pF.symm, hst, cT.trans cF.symm, iT.trans iF.symm,
      rT.trans rF.symm⟩

/-- Witness of C12: the branch token fetched by `busyPipeline`. -/
theorem taken_arm_matches_not_taken_witness :
    (-9223372036854775808 ≤ busyPipeline.pc ∧ busyPipeline.pc < 9223372036854775807 ∧
      busyPipeline.resolveBranch "BRANCH R1, 8" = busyPipeline.pc + 1) ∧
    ("BRANCH R1, 8" ≠ "" ∧ stringsContains "BRANCH R1, 8" "BRANCH" = true ∧
      busyPipeline.decodeArm true "BRANCH R1, 8" = .taken ∧
      busyPipeline.decodeArm false "BRANCH R1, 8" = .notTaken) ∧
    (0 ≤ busyPipeline.pc ∧
      ∃ qT qF, busyPipeline.cycleWith true = .ok qT ∧ busyPipeline.cycle = .ok qF ∧
        qT.pc = qF.pc ∧ qT.stages = qF.stages ∧ qT.instructionCount = qF.instructionCount ∧
        qT.instructions = qF.instructions ∧ qT.registers = qF.registers) :=
  ⟨⟨by decide, by decide,
      (taken_arm_matches_not_taken busyPipeline "BRANCH R1, 8").2.1 (by decide) (by decide)⟩,
    ⟨by decide, by decide,
      (taken_arm_matches_not_taken busyPipeline "BRANCH R1, 8").2.2.1 (by decide) (by decide)⟩,
    ⟨by decide,
      (taken_arm_matches_not_taken busyPipeline "BRANCH R1, 8").2.2.2.2.2 (by decide)⟩⟩

/-! ## Invariants of iterated cycles -/

theorem cycles_succ (n : Nat) (p : Pipeline) :
    p.cycles (n + 1) =
      match p.cycle with
      | .error e => .error e
      | .ok q => q.cycles n := rfl

/-- A property kept by every returning cycle holds after any number of cycles. -/
theorem cycles_invariant (P : Pipeline → Prop)
    (hstep : ∀ p q, P p → p.cycle = .ok q → P q) (n : Nat) :
    ∀ p q, P p → p.cycles n = .ok q → P q := by
  induction n with
  | zero =>
    intro p q hp h
    injection h with h
    exact h ▸ hp
  | succ n ih =>
    intro p q hp h
    rw [cycles_succ] at h
    cases hc : p.cycle with
    | error e =>
      rw [hc] at h
      cases h
    | ok r =>
      rw [hc] at h
      exact ih r q (hstep p r hp hc) h

/-- A property kept by every returning cycle holds when the loop of `Run` halts. -/
theorem runLoop_invariant (P : Pipeline → Prop)
    (hstep : ∀ p q, P p → p.cycle = .ok q → P q) (fuel : Nat) :
    ∀ (p : Pipeline) (output : List String) (calls : Nat) (q : Pipeline)
      (output' : List String) (calls' : Nat),
      P p → p.runLoop fuel output calls = .halted q output' calls' → P q := by
  induction fuel with
  | zero =>
    intro p output calls q output' calls' hp h
    unfold Pipeline.runLoop at h
    split at h
    · cases h
    · injection h with h1 _ _
      exact h1 ▸ hp
  | succ fuel ih =>
    intro p output calls q output' calls' hp h
    unfold Pipeline.runLoop at h
    split at h
    · cases hc : p.cycle with
      | error e =>
        rw [hc] at h
        cases h
      | ok r =>
        rw [hc] at h
        exact ih r _ _ q output' calls' (hstep p r hp hc) h
    · injection h with h1 _ _
      exact h1 ▸ hp

/-- From a state with `pc ≥ 0`, `n` cycles return as long as neither the program
counter nor the count leaves the range of `int`, and add `n` to both. -/
theorem cycles_of_nonneg (n : Nat) :
    ∀ p : Pipeline, 0 ≤ p.pc → p.pc + n < 9223372036854775808 →
      -9223372036854775808 ≤ p.instructionCount →
      p.instructionCount + n < 9223372036854775808 →
      ∃ q, p.cycles n = .ok q ∧ q.pc = p.pc + n ∧
        q.instructionCount = p.instructionCount + n ∧
        q.instructions = p.instructions := by
  induction n with
  | zero =>
    intro p _ _ _ _
    exact ⟨p, rfl, by simp, by simp, rfl⟩
  | succ n ih =>
    intro p h0 hpc hc0 hc
    obtain ⟨r, hr⟩ := cycleWith_ok_of_nonneg false p h0
    obtain ⟨_, hpc', hcnt', hins', _, _⟩ := cycleWith_ok_fields false p r hr
    rw [wrapInt64_eq_self (by omega) (by push_cast at hpc; omega)] at hpc'
    rw [wrapInt64_eq_self (by omega) (by push_cast at hc; omega)] at hcnt'
    obtain ⟨q, hq, hqpc, hqcnt, hqins⟩ := ih r (by omega) (by push_cast at hpc ⊢; omega)
      (by omega) (by push_cast at hc ⊢; omega)
    refine ⟨q, ?_, ?_, ?_, hqins.trans hins'⟩
    · rw [cycles_succ]
      rw [cycleWith_false] at hr
      rw [hr]
      exact hq
    · rw [hqpc, hpc']
      push_cast
      omega
    · rw [hqcnt, hcnt']
      push_cast
      omega

theorem cycle_keeps_flag_false (p q : Pipeline) (hp : p.controlUnit.branchTaken = false)
    (h : p.cycle = .ok q) : q.controlUnit.branchTaken = false := by
  obtain ⟨_, _, _, _, _, hcu⟩ := cycleWith_ok_fields false p q h
  rcases hcu with hcu | hcu
  · rw [hcu]
    exact hp
  · rw [hcu]

theorem cycle_keeps_registers (p q : Pipeline) (hp : p.registers = RegisterFile.zero)
    (h : p.cycle = .ok q) : q.registers = RegisterFile.zero := by
  obtain ⟨_, _, _, _, hreg, _⟩ := cycleWith_ok_fields false p q h
  exact hreg.trans hp

theorem cycle_keeps_count_eq_pc (p q : Pipeline) (hp : p.instructionCount = p.pc)
    (h : p.cycle = .ok q) : q.instructionCount = q.pc := by
  obtain ⟨_, hpc, hcnt, _, _, _⟩ := cycleWith_ok_fields false p q h
  rw [hpc, hcnt, hp]

theorem decodeArm_false_ne_taken (p : Pipeline) (token : String) :
    p.decodeArm false token ≠ .taken := by
  unfold Pipeline.decodeArm
  split
  · simp [ControlUnit.HandleBranch]
  · simp

theorem read_zero_file (i : Int) (h : 0 ≤ i ∧ i < 32) :
    (RegisterFile.zero.Read i).1 = .ok 0 := by
  simp only [RegisterFile.Read, dif_pos h, RegisterFile.zero]

/-! ## Safety of the run and bookkeeping -/

/-- C13: in a run from `Pc = 0` over `N` instructions, `Run` halts without a panic after
`N` cycles, and the state reached after `k ≤ N` of them has `0 ≤ pc = k ≤ N`; when
`k < N`, so that `cycle` is invoked on it, the fetch index satisfies `0 ≤ pc < N`, the
indexing `instructions[pc]` succeeds, the cycle returns, and it moves the program counter
by exactly 1 (so by 0 or 1) to a value that is still at most `N`. -/
theorem run_cycles_total (instrs : List MemInstruction) (regs : Fin 32 → Int)
    (fuel k : Nat) (hlen : instrs.length < 9223372036854775808)
    (hfuel : instrs.length ≤ fuel) (hk : k ≤ instrs.length) :
    (∃ p output, (NewPipeline ⟨0, instrs, regs⟩).Run fuel = .halted p output instrs.length) ∧
    ∃ q, (NewPipeline ⟨0, instrs, regs⟩).cycles k = .ok q ∧
      q.pc = (k : Int) ∧ 0 ≤ q.pc ∧ q.pc ≤ (instrs.length : Int) ∧
      (k = instrs.length → ¬ q.pc < (q.instructions.length : Int)) ∧
      (k < instrs.length →
        q.pc < (q.instructions.length : Int) ∧
        (∃ m, indexSlice q.instructions q.pc = .ok m) ∧
        ∃ q', q.cycle = .ok q' ∧ q'.pc = q.pc + 1 ∧
          (q'.pc - q.pc = 0 ∨ q'.pc - q.pc = 1) ∧ q'.pc ≤ (instrs.length : Int)) := by
  constructor
  · refine ⟨stateAfter instrs instrs.length,
      reportsFrom instrs 0 instrs.length ++ [(stateAfter instrs instrs.length).totalLine], ?_⟩
    rw [Pipeline.Run, newPipeline_eq_stateAfter,
      runLoop_stateAfter instrs hlen instrs.length 0 fuel [] 0 (by omega) hfuel]
    simp
  · refine ⟨stateAfter instrs k, ?_, rfl, ?_, ?_, ?_, ?_⟩
    · rw [newPipeline_eq_stateAfter, cycles_stateAfter instrs hlen k 0 (by omega)]
      simp
    · simp only [stateAfter]
      omega
    · simp only [stateAfter]
      omega
    · intro hkN
      simp only [stateAfter]
      omega
    · intro hkN
      have hlt : (stateAfter instrs k).pc < ((stateAfter instrs k).instructions.length : Int) := by
        simp only [stateAfter]
        omega
      have h0 : 0 ≤ (stateAfter instrs k).pc := by
        simp only [stateAfter]
        omega
      obtain ⟨m, _, hm⟩ := indexSlice_of_inBounds _ _ h0 hlt
      refine ⟨hlt, ⟨m, hm⟩, stateAfter instrs (k + 1), cycle_stateAfter instrs k hlen hkN, ?_,
        ?_, ?_⟩
      · simp only [stateAfter]
        push_cast
        rfl
      · right
        simp only [stateAfter]
        push_cast
        omega
      · simp only [stateAfter]
        omega

/-- Witness of C13: the sample program after its 2nd cycle. -/
theorem run_cycles_total_witness :
    sampleProgram.length < 9223372036854775808 ∧ sampleProgram.length ≤ 3 ∧
    2 ≤ sampleProgram.length ∧
    (∃ p output,
      (NewPipeline ⟨0, sampleProgram, fun _ => 0⟩).Run 3 = .halted p output sampleProgram.length) ∧
    ∃ q, (NewPipeline ⟨0, sampleProgram, fun _ => 0⟩).cycles 2 = .ok q ∧
      q.pc = ((2 : Nat) : Int) ∧ 0 ≤ q.pc ∧ q.pc ≤ (sampleProgram.length : Int) ∧
      (2 = sampleProgram.length → ¬ q.pc < (q.instructions.length : Int)) ∧
      (2 < sampleProgram.length →
        q.pc < (q.instructions.length : Int) ∧
        (∃ m, indexSlice q.instructions q.pc = .ok m) ∧
        ∃ q', q.cycle = .ok q' ∧ q'.pc = q.pc + 1 ∧
          (q'.pc - q.pc = 0 ∨ q'.pc - q.pc = 1) ∧ q'.pc ≤ (sampleProgram.length : Int)) :=
  ⟨by decide, by decide, by decide,
    run_cycles_total sampleProgram (fun _ => 0) 3 2 (by decide) (by decide) (by decide)⟩

/-- C14: every call of `cycle` on a state with `pc ≥ 0` returns and increments the
executed-instruction counter once, `instructionCount++` in Go's `int` arithmetic, which
is exactly `+ 1` below the largest `int`, whatever the token and whether `pc` is within
or past the end of the sequence. Hence from the initial state with `Pc = 0` the counter
equals the program counter in every state any number of cycles reaches, and after `k`
cycles (`k < 2^63`) both equal `k`. -/
theorem cycle_counts_once (p : Pipeline) (instrs : List MemInstruction)
    (regs : Fin 32 → Int) (k : Nat) (h0 : 0 ≤ p.pc) (hk : k < 9223372036854775808) :
    (∃ q, p.cycle = .ok q ∧
      q.instructionCount = wrapInt64 (p.instructionCount + 1) ∧
      (-9223372036854775808 ≤ p.instructionCount →
        p.instructionCount < 9223372036854775807 →
        q.instructionCount = p.instructionCount + 1)) ∧
    (∃ q, (NewPipeline ⟨0, instrs, regs⟩).cycles k = .ok q ∧
      q.instructionCount = (k : Int) ∧ q.pc = (k : Int)) ∧
    (∀ n q, (NewPipeline ⟨0, instrs, regs⟩).cycles n = .ok q → q.instructionCount = q.pc) := by
  refine ⟨?_, ?_, ?_⟩
  · obtain ⟨q, hq⟩ := cycleWith_ok_of_nonneg false p h0
    obtain ⟨_, _, hcnt, _, _, _⟩ := cycleWith_ok_fields false p q hq
    refine ⟨q, hq, hcnt, ?_⟩
    intro h1 h2
    rw [hcnt]
    exact wrapInt64_eq_self (by omega) (by omega)
  · obtain ⟨q, hq, hpc, hcnt, _⟩ := cycles_of_nonneg k (NewPipeline ⟨0, instrs, regs⟩)
      (le_refl _) (by simp only [NewPipeline]; omega) (by simp only [NewPipeline]; omega)
      (by simp only [NewPipeline]; omega)
    refine ⟨q, hq, ?_, ?_⟩
    · rw [hcnt]
      simp [NewPipeline]
    · rw [hpc]
      simp [NewPipeline]
  · intro n q hq
    exact cycles_invariant (fun r => r.instructionCount = r.pc) cycle_keeps_count_eq_pc n
      (NewPipeline ⟨0, instrs, regs⟩) q rfl hq

/-- Witness of C14: a cycle of `busyPipeline`, and five cycles over the sample program,
two of them past its end. -/
theorem cycle_counts_once_witness :
    0 ≤ busyPipeline.pc ∧ 5 < 9223372036854775808 ∧
    (∃ q, busyPipeline.cycle = .ok q ∧
      q.instructionCount = wrapInt64 (busyPipeline.instructionCount + 1) ∧
      (-9223372036854775808 ≤ busyPipeline.instructionCount →
        busyPipeline.instructionCount < 9223372036854775807 →
        q.instructionCount = busyPipeline.instructionCount + 1)) ∧
    (∃ q, (NewPipeline ⟨0, sampleProgram, fun _ => 0⟩).cycles 5 = .ok q ∧
      q.instructionCount = ((5 : Nat) : Int) ∧ q.pc = ((5 : Nat) : Int)) :=
  ⟨by decide, by decide,
    (cycle_counts_once busyPipeline sampleProgram (fun _ => 0) 5 (by decide) (by decide)).1,
    (cycle_counts_once busyPipeline sampleProgram (fun _ => 0) 5 (by decide) (by decide)).2.1⟩

/-- C15: in every state reached from `NewPipeline(state)` by any number of cycles, and in
the state in which `Run` halts, the control unit's `branchTaken` flag is false, whatever
the instruction sequence; and on no pipeline state does the decode step of `cycle` run
its taken arm, the only caller of `resolveBranch`. -/
theorem branchTaken_stays_false (state : State) :
    (∀ n q, (NewPipeline state).cycles n = .ok q → q.controlUnit.branchTaken = false) ∧
    (∀ fuel p output calls, (NewPipeline state).Run fuel = .halted p output calls →
      p.controlUnit.branchTaken = false) ∧
    (∀ (p : Pipeline) (token : String), p.decodeArm false token ≠ .taken) := by
  refine ⟨?_, ?_, decodeArm_false_ne_taken⟩
  · intro n q hq
    exact cycles_invariant (fun r => r.controlUnit.branchTaken = false)
      cycle_keeps_flag_false n (NewPipeline state) q rfl hq
  · intro fuel p output calls h
    exact runLoop_invariant (fun r => r.controlUnit.branchTaken = false)
      cycle_keeps_flag_false fuel (NewPipeline state) [] 0 p output calls rfl h

/-- Witness of C15: the sample program, whose 2nd instruction is branch-classified,
after two cycles. -/
theorem branchTaken_stays_false_witness :
    ∃ q, (NewPipeline ⟨0, sampleProgram, fun _ => 0⟩).cycles 2 = .ok q ∧
      stringsContains (q.stages 0).instruction "BRANCH" = true ∧
      q.controlUnit.branchTaken = false :=
  ⟨_, rfl, by decide,
    (branchTaken_stays_false ⟨0, sampleProgram, fun _ => 0⟩).1 2 _ rfl⟩

/-- C16: `NewPipeline` builds the register file as the zero value, not from
`state.Registers`, and neither `cycle` nor `Run` writes it: in every state reached by any
number of cycles, and in the state in which `Run` halts, every register `0..31` reads
0. -/
theorem registers_stay_zero (state : State) :
    (NewPipeline state).registers = RegisterFile.zero ∧
    (∀ n q, (NewPipeline state).cycles n = .ok q →
      q.registers = RegisterFile.zero ∧
      ∀ i : Int, 0 ≤ i ∧ i < 32 → (q.registers.Read i).1 = .ok 0) ∧
    (∀ fuel p output calls, (NewPipeline state).Run fuel = .halted p output calls →
      p.registers = RegisterFile.zero ∧
      ∀ i : Int, 0 ≤ i ∧ i < 32 → (p.registers.Read i).1 = .ok 0) := by
  refine ⟨rfl, ?_, ?_⟩
  · intro n q hq
    have hz := cycles_invariant (fun r => r.registers = RegisterFile.zero)
      cycle_keeps_registers n (NewPipeline state) q rfl hq
    refine ⟨hz, fun i hi => ?_⟩
    rw [hz]
    exact read_zero_file i hi
  · intro fuel p output calls h
    have hz := runLoop_invariant (fun r => r.registers = RegisterFile.zero)
      cycle_keeps_registers fuel (NewPipeline state) [] 0 p output calls rfl h
    refine ⟨hz, fun i hi => ?_⟩
    rw [hz]
    exact read_zero_file i hi

/-- Witness of C16: the sample program, handed over with every register of the `State`
set to 7, after three cycles and at the halt of `Run`. -/
theorem registers_stay_zero_witness :
    (∃ q, (NewPipeline ⟨0, sampleProgram, fun _ => 7⟩).cycles 3 = .ok q ∧
      (q.registers.Read 31).1 = .ok 0) ∧
    (∃ p output, (NewPipeline ⟨0, sampleProgram, fun _ => 7⟩).Run 3 = .halted p output 3 ∧
      (p.registers.Read 5).1 = .ok 0) := by
  have hc : (NewPipeline ⟨0, sampleProgram, fun _ => 7⟩).cycles 3
      = .ok (stateAfter sampleProgram 3) := by
    rw [newPipeline_eq_stateAfter]
    exact cycles_stateAfter sampleProgram (by decide) 3 0 (by decide)
  have hr : (NewPipeline ⟨0, sampleProgram, fun _ => 7⟩).Run 3
      = .halted (stateAfter sampleProgram 3)
          (reportsFrom sampleProgram 0 3 ++ [(stateAfter sampleProgram 3).totalLine]) 3 := by
    rw [Pipeline.Run, newPipeline_eq_stateAfter,
      runLoop_stateAfter sampleProgram (by decide) 3 0 3 [] 0 (by decide) (by decide)]
    simp [show sampleProgram.length = 3 from rfl]
  exact ⟨⟨_, hc, ((registers_stay_zero ⟨0, sampleProgram, fun _ => 7⟩).2.1 3 _ hc).2 31
      ⟨by decide, by decide⟩⟩,
    ⟨_, _, hr, ((registers_stay_zero ⟨0, sampleProgram, fun _ => 7⟩).2.2 3 _ _ 3 hr).2 5
      ⟨by decide, by decide⟩⟩⟩

theorem printStages_length (p : Pipeline) : p.printStages.length = 7 := by
  simp [Pipeline.printStages]

/-- From a state with `0 ≤ pc ≤ N` the loop of `Run` performs `N - pc` cycles and
halts. -/
theorem runLoop_of_inBounds (n : Nat) :
    ∀ (p : Pipeline) (fuel : Nat) (output : List String) (calls : Nat),
      p.instructions.length < 9223372036854775808 → 0 ≤ p.pc →
      p.pc + n = (p.instructions.length : Int) → n ≤ fuel →
      -9223372036854775808 ≤ p.instructionCount →
      p.instructionCount + n < 9223372036854775808 →
      ∃ q output', p.runLoop fuel output calls = .halted q output' (calls + n) ∧
        q.instructionCount = p.instructionCount + n ∧
        output'.getLast? = some ("Total de instruções executadas: "
          ++ toString (p.instructionCount + n) ++ "\n") ∧
        output'.length = output.length + 7 * n + 1 := by
  induction n with
  | zero =>
    intro p fuel output calls _ _ hpc _ _ _
    have hN : ¬ p.pc < (p.instructions.length : Int) := by
      push_cast at hpc
      omega
    refine ⟨p, output ++ [p.totalLine], ?_, by simp, ?_, by simp⟩
    · unfold Pipeline.runLoop
      rw [if_neg hN]
      rfl
    · simp [Pipeline.totalLine]
  | succ n ih =>
    intro p fuel output calls hlen h0 hpc hfuel hc0 hc
    obtain ⟨fuel, rfl⟩ : ∃ f, fuel = f + 1 := ⟨fuel - 1, by omega⟩
    have hN : p.pc < (p.instructions.length : Int) := by
      push_cast at hpc
      omega
    obtain ⟨r, hr⟩ := cycleWith_ok_of_nonneg false p h0
    obtain ⟨_, hpc', hcnt', hins', _, _⟩ := cycleWith_ok_fields false p r hr
    rw [wrapInt64_eq_self (by omega) (by omega)] at hpc'
    rw [wrapInt64_eq_self (by omega) (by push_cast at hc; omega)] at hcnt'
    rw [cycleWith_false] at hr
    obtain ⟨q, output', hq, hqcnt, hlast, hlength⟩ := ih r fuel (output ++ r.printStages)
      (calls + 1) (by rw [hins']; exact hlen) (by omega)
      (by rw [hins', hpc']; push_cast at hpc; omega) (by omega) (by omega)
      (by rw [hcnt']; push_cast at hc; omega)
    refine ⟨q, output', ?_, ?_, ?_, ?_⟩
    · unfold Pipeline.runLoop
      rw [if_pos hN]
      simp only [hr]
      rw [hq]
      congr 1
      omega
    · rw [hqcnt, hcnt']
      push_cast
      omega
    · rw [hlast, hcnt']
      congr 4
      push_cast
      omega
    · rw [hlength, List.length_append, printStages_length]
      omega

/-! ## Frame of the register file, and runs from an arbitrary `Pc` -/

/-- C17: for every register file, every in-range index `i` and every value `v`,
`Write(i, v)` returns and leaves every register `j ≠ i` unchanged; `Write(0, v)` leaves
the whole register file unchanged; and `Read`, on any index, changes no register. -/
theorem write_read_frame (rf : RegisterFile) (i v k : Int) (hi : 0 ≤ i ∧ i < 32) :
    (rf.Write i v).1 = .ok () ∧
    (∀ j : Fin 32, (j.val : Int) ≠ i → (rf.Write i v).2.registers j = rf.registers j) ∧
    rf.Write 0 v = (.ok (), rf) ∧
    (rf.Read k).2 = rf := by
  refine ⟨write_ok_of_inRange rf i v hi, ?_, ?_, ?_⟩
  · intro j hj
    unfold RegisterFile.Write
    by_cases hne : i ≠ 0
    · rw [if_pos hne, dif_pos hi]
      have hidx : j ≠ ⟨i.toNat, by omega⟩ := by
        intro hc
        have hv := congrArg Fin.val hc
        simp only at hv
        omega
      simp only [Function.update_noteq hidx]
    · rw [if_neg hne]
  · simp [RegisterFile.Write]
  · unfold RegisterFile.Read
    split <;> rfl

/-- Witness of C17: a write to register 5 of a register file holding 3 everywhere. -/
theorem write_read_frame_witness :
    ((0 : Int) ≤ 5 ∧ (5 : Int) < 32) ∧
    (RegisterFile.Write ⟨fun _ => 3⟩ 5 9).1 = .ok () ∧
    (∀ j : Fin 32, (j.val : Int) ≠ 5 →
      (RegisterFile.Write ⟨fun _ => 3⟩ 5 9).2.registers j
        = (⟨fun _ => 3⟩ : RegisterFile).registers j) ∧
    RegisterFile.Write ⟨fun _ => 3⟩ 0 9 = (.ok (), ⟨fun _ => 3⟩) ∧
    (RegisterFile.Read ⟨fun _ => 3⟩ 40).2 = ⟨fun _ => 3⟩ :=
  ⟨⟨by decide, by decide⟩, write_read_frame ⟨fun _ => 3⟩ 5 9 40 ⟨by decide, by decide⟩⟩

/-- C18: for every `State` handed to `NewPipeline`, with `N` instructions. If
`State.Pc < 0`, the loop test `pc < N` and the fetch test pass, also for `N = 0`, and the
first `cycle` panics on `instructions[pc]` before anything is written. If
`0 ≤ State.Pc ≤ N`, `Run` does not panic, calls `cycle` exactly `N - State.Pc` times,
writes as many reports and reports the count `N - State.Pc`. If `State.Pc > N`, `Run`
calls `cycle` zero times and its whole output is the report of the count 0. -/
theorem run_from_any_pc (state : State) (fuel : Nat) :
    (state.Pc < 0 → 1 ≤ fuel →
      (NewPipeline state).pc < ((NewPipeline state).instructions.length : Int) ∧
      (NewPipeline state).cycle
        = .error (.indexOutOfRange state.Pc state.InstructionMemory.length) ∧
      (NewPipeline state).Run fuel
        = .panicked (.indexOutOfRange state.Pc state.InstructionMemory.length) []) ∧
    (0 ≤ state.Pc → state.Pc ≤ (state.InstructionMemory.length : Int) →
      state.InstructionMemory.length < 9223372036854775808 →
      ((state.InstructionMemory.length : Int) - state.Pc).toNat ≤ fuel →
      ∃ p output,
        (NewPipeline state).Run fuel
          = .halted p output ((state.InstructionMemory.length : Int) - state.Pc).toNat ∧
        p.instructionCount = (state.InstructionMemory.length : Int) - state.Pc ∧
        output.getLast? = some ("Total de instruções executadas: "
          ++ toString ((state.InstructionMemory.length : Int) - state.Pc) ++ "\n") ∧
        output.length
          = 7 * ((state.InstructionMemory.length : Int) - state.Pc).toNat + 1) ∧
    ((state.InstructionMemory.length : Int) < state.Pc →
      (NewPipeline state).Run fuel
        = .halted (NewPipeline state) ["Total de instruções executadas: 0\n"] 0) := by
  refine ⟨?_, ?_, ?_⟩
  · intro hneg hfuel
    obtain ⟨fuel, rfl⟩ : ∃ f, fuel = f + 1 := ⟨fuel - 1, by omega⟩
    have hN : (NewPipeline state).pc < ((NewPipeline state).instructions.length : Int) := by
      simp only [NewPipeline]
      omega
    have hc := cycle_error_of_neg (NewPipeline state) hneg
    refine ⟨hN, hc, ?_⟩
    unfold Pipeline.Run Pipeline.runLoop
    rw [if_pos hN]
    simp only [hc]
    rfl
  · intro h0 hN hlen hfuel
    obtain ⟨q, output', hq, hcnt, hlast, hlength⟩ :=
      runLoop_of_inBounds ((state.InstructionMemory.length : Int) - state.Pc).toNat
        (NewPipeline state) fuel [] 0 hlen h0
        (by simp only [NewPipeline]; omega) hfuel
        (by simp only [NewPipeline]; omega) (by simp only [NewPipeline]; omega)
    have hcast : ((((state.InstructionMemory.length : Int) - state.Pc).toNat : Nat) : Int)
        = (state.InstructionMemory.length : Int) - state.Pc := by omega
    refine ⟨q, output', ?_, ?_, ?_, ?_⟩
    · rw [Pipeline.Run, hq]
      simp
    · rw [hcnt, hcast]
      simp [NewPipeline]
    · rw [hlast, hcast]
      simp [NewPipeline]
    · rw [hlength]
      simp
  · intro hgt
    have hN : ¬ (NewPipeline state).pc < ((NewPipeline state).instructions.length : Int) := by
      simp only [NewPipeline]
      omega
    unfold Pipeline.Run Pipeline.runLoop
    rw [if_neg hN]
    rfl

/-- Witness of C18: the sample program started at `Pc = -1`, `Pc = 1` and `Pc = 4`, and
the empty program started at `Pc = -1`. -/
theorem run_from_any_pc_witness :
    ((NewPipeline ⟨-1, sampleProgram, fun _ => 0⟩).Run 3
      = .panicked (.indexOutOfRange (-1) 3) []) ∧
    ((NewPipeline ⟨-1, [], fun _ => 0⟩).Run 3 = .panicked (.indexOutOfRange (-1) 0) []) ∧
    (∃ p output, (NewPipeline ⟨1, sampleProgram, fun _ => 0⟩).Run 3 = .halted p output 2 ∧
      p.instructionCount = 2 ∧
      output.getLast? = some "Total de instruções executadas: 2\n" ∧
      output.length = 15) ∧
    ((NewPipeline ⟨4, sampleProgram, fun _ => 0⟩).Run 3
      = .halted (NewPipeline ⟨4, sampleProgram, fun _ => 0⟩)
          ["Total de instruções executadas: 0\n"] 0) :=
  ⟨((run_from_any_pc ⟨-1, sampleProgram, fun _ => 0⟩ 3).1 (by decide) (by decide)).2.2,
    ((run_from_any_pc ⟨-1, [], fun _ => 0⟩ 3).1 (by decide) (by decide)).2.2,
    (run_from_any_pc ⟨1, sampleProgram, fun _ => 0⟩ 3).2.1 (by decide) (by decide)
      (by decide) (by decide),
    (run_from_any_pc ⟨4, sampleProgram, fun _ => 0⟩ 3).2.2 (by decide)⟩

end PipelineSim
